import Mathlib

/-!
Verification of the CUR8tr recommendation-sharing application.

Shallow embedding of the data model and the operations of the repository
(`models.py`, `utils.py`, `routes.py`, `routes_tagging.py`).  Strings are
modelled as `List Char` (ASCII fragment: all slugs, tags and codes the
application manipulates are ASCII; Python's unicode NFKD normalisation in
`utils.slugify` is the identity on ASCII input).  Database tables are
modelled as lists of rows, and route handlers as functions from the table
state (plus the request data) to the new state and an outcome value.
-/

namespace Cur8tr

/-! ## Character classes (ASCII model of the Python predicates) -/

/-- ASCII alphanumeric test, the character class `[a-zA-Z0-9]` of the regex in
`models.slugify`. -/
def isAlnumA (c : Char) : Bool :=
  ('a' ≤ c && c ≤ 'z') || ('A' ≤ c && c ≤ 'Z') || ('0' ≤ c && c ≤ '9')

/-- ASCII whitespace, the characters removed by Python `str.strip()` and
matched by the regex class `\s` (ASCII fragment). -/
def isSpaceA (c : Char) : Bool :=
  c = ' ' || c = '\t' || c = '\n' || c = '\r' || c = '\x0b' || c = '\x0c'

/-- The character class `\w` = `[a-zA-Z0-9_]` of the regex in `utils.slugify`
(ASCII fragment). -/
def isWordA (c : Char) : Bool := isAlnumA c || c = '_'

/-- Characters a normalised tag slug may contain: lowercase ASCII letters,
digits, hyphen. -/
def isSlugChar (c : Char) : Bool :=
  ('a' ≤ c && c ≤ 'z') || ('0' ≤ c && c ≤ '9') || c = '-'

/-! ## Python string primitives on `List Char` -/

/-- Remove trailing characters satisfying `p` (the right half of Python
`str.strip`). -/
def dropTrailing (p : Char → Bool) (s : List Char) : List Char :=
  ((s.reverse).dropWhile p).reverse

/-- Python `str.strip(chars)`: remove leading and trailing characters
satisfying `p`. -/
def pyStrip (p : Char → Bool) (s : List Char) : List Char :=
  dropTrailing p (s.dropWhile p)

/-- `re.sub(klass+, repl, s)` for a single replacement character: replace each
maximal run of characters satisfying `p` by the single character `h`. -/
def collapseRuns (p : Char → Bool) (h : Char) : List Char → List Char
  | [] => []
  | [c] => if p c then [h] else [c]
  | c :: d :: rest =>
      if p c then
        (if p d then collapseRuns p h (d :: rest) else h :: collapseRuns p h (d :: rest))
      else c :: collapseRuns p h (d :: rest)

/-- Does the first character of `s` satisfy `p`? -/
def headP (p : Char → Bool) (s : List Char) : Bool :=
  match s.head? with
  | none => false
  | some c => p c

/-- Does the last character of `s` satisfy `p`? -/
def lastP (p : Char → Bool) (s : List Char) : Bool :=
  match s.getLast? with
  | none => false
  | some c => p c

/-- Is `p` a contiguous substring of `s`?  (Model of SQL `LIKE '%p%'` and of
Python `in` on strings.) -/
def isSubList (p s : List Char) : Bool :=
  s.tails.any (fun t => p.isPrefixOf t)

/-! ## The two slugification functions of the repository -/

namespace Models

/-- `models.slugify`: lowercase, strip surrounding whitespace, collapse each
run of non-alphanumeric characters to a single hyphen, strip surrounding
hyphens, truncate to 50 characters.  Empty input yields the empty slug. -/
def slugify (text : List Char) : List Char :=
  if text.isEmpty then []
  else
    let stripped := pyStrip isSpaceA (text.map Char.toLower)
    let collapsed := collapseRuns (fun c => !isAlnumA c) '-' stripped
    (pyStrip (fun c => c = '-') collapsed).take 50

end Models

namespace Utils

/-- `utils.slugify`: delete every character that is not a word character,
whitespace or hyphen, strip surrounding whitespace, lowercase, then collapse
each run of whitespace/hyphens to a single hyphen.  (The unicode NFKD
normalisation performed first by the Python code is the identity on the ASCII
fragment modelled here.) -/
def slugify (text : List Char) : List Char :=
  let kept := text.filter (fun c => isWordA c || isSpaceA c || c = '-')
  let lowered := (pyStrip isSpaceA kept).map Char.toLower
  collapseRuns (fun c => isSpaceA c || c = '-') '-' lowered

end Utils

/-- The slugification algorithm exactly as the specification words it:
lowercase the text, replace each maximal run of non-alphanumeric characters
by a single hyphen, strip leading and trailing hyphens, cap the length at 50
characters.  (Unlike `Models.slugify`, no separate whitespace-stripping step
appears.) -/
def slugifyClaimed (text : List Char) : List Char :=
  (pyStrip (fun c => c = '-')
    (collapseRuns (fun c => !isAlnumA c) '-' (text.map Char.toLower))).take 50

/-- A string is a normalised slug in the sense of the specification:
lowercase alphanumerics and hyphens only, length capped at 50. -/
def isNormSlug (s : List Char) : Prop :=
  (∀ c ∈ s, isSlugChar c = true) ∧ s.length ≤ 50

instance decIsNormSlug (s : List Char) : Decidable (isNormSlug s) :=
  inferInstanceAs (Decidable ((∀ c ∈ s, isSlugChar c = true) ∧ s.length ≤ 50))

/-! ## The tags JSON field of a Recommendation

`Recommendation.tags` is a JSON dict with the optional keys `"categories"`
and `"collections"`, each holding a list of strings.  `none` models SQL
`NULL`, `some ⟨none, none⟩` models the empty dict `{}`. -/

structure Tags where
  categories : Option (List (List Char))
  collections : Option (List (List Char))
deriving DecidableEq

/-- Python truthiness of the `tags` attribute: `None` and the empty dict are
falsy; a dict with at least one key present is truthy. -/
def tagsFalsy : Option Tags → Bool
  | none => true
  | some t => t.categories = none && t.collections = none

/-- `self.tags.get('categories', [])`. -/
def catList (t : Tags) : List (List Char) := t.categories.getD []

/-- `self.tags.get('collections', [])`. -/
def colList (t : Tags) : List (List Char) := t.collections.getD []

/-- The string literal `"category"` (the `tag_type` distinguishing value). -/
def categoryLit : List Char := ['c', 'a', 't', 'e', 'g', 'o', 'r', 'y']

/-- `Recommendation.get_tags`: concatenation of the two lists, keys that are
absent contributing nothing; falsy `tags` yields `[]`. -/
def get_tags (tags : Option Tags) : List (List Char) :=
  if tagsFalsy tags then []
  else
    match tags with
    | none => []
    | some t =>
        (match t.categories with
         | some l => l
         | none => []) ++
        (match t.collections with
         | some l => l
         | none => [])

/-- `Recommendation.add_tag`: initialise falsy `tags` to
`{'categories': [], 'collections': []}`, slugify the tag name, and append the
slug to the list selected by `tag_type` unless it is already present. -/
def add_tag (tags : Option Tags) (tag_name tag_type : List Char) : Option Tags :=
  let t : Tags :=
    if tagsFalsy tags then ⟨some [], some []⟩
    else tags.getD ⟨none, none⟩
  let tag_slug := Models.slugify tag_name
  if tag_type = categoryLit then
    if tag_slug ∈ catList t then some t
    else some { t with categories := some (catList t ++ [tag_slug]) }
  else
    if tag_slug ∈ colList t then some t
    else some { t with collections := some (colList t ++ [tag_slug]) }

/-- Every list present in the tags mapping holds only normalised slugs. -/
def TagsNormalized (t : Tags) : Prop :=
  (∀ l, t.categories = some l → ∀ s ∈ l, isNormSlug s) ∧
  (∀ l, t.collections = some l → ∀ s ∈ l, isNormSlug s)

def OptTagsNormalized : Option Tags → Prop
  | none => True
  | some t => TagsNormalized t

/-- Every list present in the tags mapping is duplicate-free. -/
def TagsNodup (t : Tags) : Prop :=
  (∀ l, t.categories = some l → l.Nodup) ∧
  (∀ l, t.collections = some l → l.Nodup)

def OptTagsNodup : Option Tags → Prop
  | none => True
  | some t => TagsNodup t

/-- The comma-separated tag field processing shared by `new_recommendation`
and `edit_recommendation` in `routes.py`: split on commas, strip whitespace,
drop empty entries, slugify each entry.  (No deduplication.) -/
def processTagField (field : List Char) : List (List Char) :=
  (((field.splitOn ',').map (pyStrip isSpaceA)).filter (fun t => !t.isEmpty)).map
    Models.slugify

/-- The tags value stored by the creation/edit forms (`routes.py`): each key
is set only when the raw field is non-empty and its processed list is
non-empty; when no key is set the empty dict `{}` is stored. -/
def form_recommendation_tags (categoryField collectionField : List Char) : Option Tags :=
  let cats : Option (List (List Char)) :=
    if categoryField.isEmpty then none
    else
      let l := processTagField categoryField
      if l.isEmpty then none else some l
  let cols : Option (List (List Char)) :=
    if collectionField.isEmpty then none
    else
      let l := processTagField collectionField
      if l.isEmpty then none else some l
  some ⟨cats, cols⟩

/-- The tags value stored by `PUT /api/recommendations/<id>/tags`
(`set_recommendation_tags` in `routes_tagging.py`): each key is set when the
submitted JSON list is non-empty, to the slugified entries whose stripped
text is non-empty; with no key set, `NULL` is stored.  (No deduplication.) -/
def put_recommendation_tags (categories collections : List (List Char)) : Option Tags :=
  let catsVal : Option (List (List Char)) :=
    if categories.isEmpty then none
    else some ((categories.filter (fun c => !(pyStrip isSpaceA c).isEmpty)).map
      Models.slugify)
  let colsVal : Option (List (List Char)) :=
    if collections.isEmpty then none
    else some ((collections.filter (fun c => !(pyStrip isSpaceA c).isEmpty)).map
      Models.slugify)
  match catsVal, colsVal with
  | none, none => none
  | c, l => some ⟨c, l⟩

/-! ## Tag filtering in GET /api/recommendations

The handler filters with
`Recommendation.tags.op('->>')('categories').like('%"<slug>"%')` (same for
collections), combining the per-tag conditions with `and_`.  `->>` extracts
the JSON serialisation of the named list (NULL when the key or the whole
field is absent, and a NULL never matches LIKE), and LIKE with a `%…%`
pattern is substring containment. -/

/-- JSON serialisation of a list of strings, e.g. `["food","summer-2025"]`. -/
def tagListCore : List (List Char) → List Char
  | [] => []
  | [x] => '"' :: x ++ ['"']
  | x :: y :: xs => '"' :: x ++ '"' :: ',' :: tagListCore (y :: xs)

def serializeTagList (l : List (List Char)) : List Char :=
  '[' :: tagListCore l ++ [']']

/-- The LIKE pattern body `"<slug>"` used by the handler: the slug wrapped in
double quotes. -/
def likePattern (slug : List Char) : List Char := '"' :: slug ++ ['"']

/-- One tag condition of `get_recommendations_by_tags`: does the pattern
`%"<slug>"%` match the serialised categories list or the serialised
collections list? -/
def sqlLikeTagCond (tags : Option Tags) (slug : List Char) : Bool :=
  match tags with
  | none => false
  | some t =>
      (match t.categories with
       | some l => isSubList (likePattern slug) (serializeTagList l)
       | none => false) ||
      (match t.collections with
       | some l => isSubList (likePattern slug) (serializeTagList l)
       | none => false)

/-- The full tag filter applied to one recommendation: every requested tag is
slugified and must satisfy its condition (logical AND). -/
def matchesTagQuery (tags : Option Tags) (queryTags : List (List Char)) : Bool :=
  queryTags.all (fun q => sqlLikeTagCond tags (Models.slugify q))

/-- The matching rule exactly as the claim words it: the bare slug (no
quotes) is a literal substring of a serialised tag list. -/
def claimedTagMatch (tags : Option Tags) (slug : List Char) : Bool :=
  match tags with
  | none => false
  | some t =>
      (match t.categories with
       | some l => isSubList slug (serializeTagList l)
       | none => false) ||
      (match t.collections with
       | some l => isSubList slug (serializeTagList l)
       | none => false)

/-- Exact element membership of the slug in a present tag list. -/
def exactTagMatch (tags : Option Tags) (slug : List Char) : Bool :=
  match tags with
  | none => false
  | some t =>
      (match t.categories with
       | some l => slug ∈ l
       | none => false) ||
      (match t.collections with
       | some l => slug ∈ l
       | none => false)

/-! ## Follows and likes (C2) -/

structure FollowRow where
  follower_id : Nat
  followed_id : Nat
deriving DecidableEq

structure LikeRow where
  user_id : Nat
  recommendation_id : Nat
deriving DecidableEq

/-- `User.is_following`: a matching Follow row exists. -/
def is_following (follows : List FollowRow) (a b : Nat) : Bool :=
  follows.any (fun f => f.follower_id = a && f.followed_id = b)

/-- The `follow_user` route: no-op when already following, otherwise insert
one Follow row. -/
def follow_user (follows : List FollowRow) (cur target : Nat) : List FollowRow :=
  if is_following follows cur target then follows
  else follows ++ [⟨cur, target⟩]

/-- The `like_recommendation` route: toggle — delete the existing Like row if
one exists, otherwise insert one. -/
def like_recommendation (likes : List LikeRow) (u r : Nat) : List LikeRow :=
  if likes.any (fun l => l.user_id = u && l.recommendation_id = r) then
    likes.eraseP (fun l => l.user_id = u && l.recommendation_id = r)
  else likes ++ [⟨u, r⟩]

/-- The (follower_id, followed_id) key of each Follow row. -/
def followKeys (follows : List FollowRow) : List (Nat × Nat) :=
  follows.map (fun f => (f.follower_id, f.followed_id))

/-- The (user_id, recommendation_id) key of each Like row. -/
def likeKeys (likes : List LikeRow) : List (Nat × Nat) :=
  likes.map (fun l => (l.user_id, l.recommendation_id))

/-! ## Registration and verification (C4)

Times are in minutes; `now + 10` models
`datetime.now() + timedelta(minutes=10)`. -/

structure PendingUser where
  username : List Char
  email : List Char
  password_hash : List Char
  verification_code : List Char
  expires_at : Nat
deriving DecidableEq

structure UserRow where
  id : Nat
  username : List Char
  email : List Char
  password_hash : List Char
  is_verified : Bool
deriving DecidableEq

structure AuthState where
  users : List UserRow
  pending_user : Option PendingUser
  session_user_id : Option Nat
deriving DecidableEq

inductive RegisterOutcome
  | usernameTaken
  | emailTaken
  | pendingStored
deriving DecidableEq

inductive VerifyOutcome
  | redirectRegister
  | expiredRedirectRegister
  | showForm
  | verified
  | invalidCode
deriving DecidableEq

/-- The `register` route on valid form data: reject taken username/email,
otherwise store the pending-verification record (with the freshly sampled
`code` and a 10-minute expiry) in the session.  No User row is created. -/
def register (st : AuthState) (username email password_hash code : List Char)
    (now : Nat) : AuthState × RegisterOutcome :=
  if st.users.any (fun u => u.username = username) then (st, .usernameTaken)
  else if st.users.any (fun u => u.email = email) then (st, .emailTaken)
  else
    ({ st with pending_user := some ⟨username, email, password_hash, code, now + 10⟩ },
      .pendingStored)

/-- The `verify_registration` route.  `submitted = none` models a GET
request, `some raw` a POST with the raw form value (which the handler
strips).  `newId` is the id the database assigns to the inserted User. -/
def verify_registration (st : AuthState) (submitted : Option (List Char))
    (now newId : Nat) : AuthState × VerifyOutcome :=
  match st.pending_user with
  | none => (st, .redirectRegister)
  | some p =>
      if p.expires_at < now then
        ({ st with pending_user := none }, .expiredRedirectRegister)
      else
        match submitted with
        | none => (st, .showForm)
        | some raw =>
            if pyStrip isSpaceA raw = p.verification_code then
              ({ users := st.users ++ [⟨newId, p.username, p.email, p.password_hash, true⟩],
                 pending_user := none,
                 session_user_id := some newId }, .verified)
            else (st, .invalidCode)

/-! ## Relational rows and the delete handlers (C5, C8) -/

structure ProfileRow where
  id : Nat
  user_id : Nat
  slug : List Char
  is_public : Bool
deriving DecidableEq

structure CategoryRow where
  id : Nat
  profile_id : Nat
  slug : List Char
deriving DecidableEq

structure RecRow where
  id : Nat
  category_id : Nat
deriving DecidableEq

structure CommentRow where
  id : Nat
  user_id : Nat
  recommendation_id : Nat
deriving DecidableEq

structure Db where
  profiles : List ProfileRow
  categories : List CategoryRow
  recommendations : List RecRow
  likes : List LikeRow
  comments : List CommentRow
  follows : List FollowRow
deriving DecidableEq

inductive DeleteCommentOutcome
  | notFound
  | deleted
  | forbidden
deriving DecidableEq

/-- The `delete_comment` route: resolve the public profile by slug, then the
category, recommendation and comment (each `first_or_404`); delete exactly
when the acting user is the comment's author or the profile's owner.
(`recommendation.category.profile` is the resolved profile, rows being keyed
by their primary id.) -/
def delete_comment (db : Db) (profile_slug category_slug : List Char)
    (rec_id comment_id current_user : Nat) : Db × DeleteCommentOutcome :=
  match db.profiles.find? (fun p => p.slug = profile_slug && p.is_public) with
  | none => (db, .notFound)
  | some profile =>
      match db.categories.find?
        (fun c => c.profile_id = profile.id && c.slug = category_slug) with
      | none => (db, .notFound)
      | some category =>
          match db.recommendations.find?
            (fun r => r.category_id = category.id && r.id = rec_id) with
          | none => (db, .notFound)
          | some rec =>
              match db.comments.find?
                (fun cm => cm.id = comment_id && cm.recommendation_id = rec.id) with
              | none => (db, .notFound)
              | some cm =>
                  let newComments := db.comments.eraseP
                    (fun c => c.id = comment_id && c.recommendation_id = rec.id)
                  if cm.user_id = current_user || profile.user_id = current_user then
                    ({ db with comments := newComments }, .deleted)
                  else (db, .forbidden)

/-- Deleting one Recommendation: the ORM cascade (`cascade="all,
delete-orphan"` on `Recommendation.likes` / `Recommendation.comments`)
removes its Like and Comment rows along with the row itself. -/
def delete_recommendation_cascade (db : Db) (rid : Nat) : Db :=
  { db with
    recommendations := db.recommendations.filter (fun r => r.id ≠ rid),
    likes := db.likes.filter (fun l => l.recommendation_id ≠ rid),
    comments := db.comments.filter (fun c => c.recommendation_id ≠ rid) }

/-- Deleting a Category (`delete_category` route): the ORM cascade on
`Category.recommendations` deletes each owned Recommendation (cascading in
turn into its likes and comments), then the Category row itself. -/
def delete_category_cascade (db : Db) (cid : Nat) : Db :=
  let ownedIds := (db.recommendations.filter (fun r => r.category_id = cid)).map
    (fun r => r.id)
  let db' := ownedIds.foldl delete_recommendation_cascade db
  { db' with categories := db'.categories.filter (fun c => c.id ≠ cid) }

/-! ## Profile slug generation (C7) -/

/-- Decimal representation of a natural number, as Python `str(n)` renders it
for `n ≥ 1`. -/
def natDecimal (n : Nat) : List Char :=
  ((Nat.digits 10 n).map Nat.digitChar).reverse

/-- The candidate slugs tried by the collision loop in `dashboard_profile`:
the base slug first, then `base-1`, `base-2`, … -/
def profileCandidate (base : List Char) : Nat → List Char
  | 0 => base
  | Nat.succ k => base ++ '-' :: natDecimal (k + 1)

/-- The `while Profile.query.filter_by(slug=slug).first():` loop of
`dashboard_profile`: the first candidate not present among the existing
profile slugs.  The embedded existence proof shows the loop terminates: a
suffix longer than every existing slug is always free. -/
def unique_profile_slug (existing : List (List Char)) (base : List Char) : List Char :=
  profileCandidate base (Nat.find (show ∃ k, profileCandidate base k ∉ existing by
    classical
    refine ⟨10 ^ (existing.map List.length).sum, fun hmem => ?_⟩
    set S := (existing.map List.length).sum with hS
    have hpow : (0 : Nat) < 10 ^ S := Nat.pos_pow_of_pos S (by norm_num)
    obtain ⟨k, hk⟩ : ∃ k, 10 ^ S = k + 1 := ⟨10 ^ S - 1, by omega⟩
    rw [hk] at hmem
    have hne : (10 : Nat) ^ S ≠ 0 := by omega
    have hdig : (Nat.digits 10 (k + 1)).length = S + 1 := by
      rw [← hk, Nat.digits_len 10 (10 ^ S) (by norm_num) hne, Nat.log_pow (by norm_num)]
    have hnd : (natDecimal (k + 1)).length = S + 1 := by
      rw [natDecimal, List.length_reverse, List.length_map, hdig]
    have hlen : (profileCandidate base (k + 1)).length = base.length + 1 + (S + 1) := by
      show (base ++ '-' :: natDecimal (k + 1)).length = _
      rw [List.length_append, List.length_cons, hnd]
      omega
    have hle : (profileCandidate base (k + 1)).length ≤ S := by
      have := List.single_le_sum (fun (x : Nat) (_ : x ∈ existing.map List.length) =>
        Nat.zero_le x) (profileCandidate base (k + 1)).length
        (List.mem_map_of_mem List.length hmem)
      simpa [← hS] using this
    omega))

/-- Profile creation in `dashboard_profile`: append a Profile whose slug is
`unique_profile_slug` applied to `utils.slugify` of the submitted name.  Only
the slug column matters for claim C7, so the table is modelled as its list of
slugs. -/
def dashboard_create_profile (slugs : List (List Char)) (name : List Char) :
    List (List Char) :=
  slugs ++ [unique_profile_slug slugs (Utils.slugify name)]

/-! # Theorems -/

/-! ## Run collapsing and stripping -/

theorem lastP_reverse (p : Char → Bool) (s : List Char) :
    lastP p s.reverse = headP p s := by
  simp [lastP, headP, List.getLast?_eq_head?_reverse]

theorem collapseRuns_cons (p : Char → Bool) (h c : Char) (s : List Char) :
    collapseRuns p h (c :: s) =
      if p c then
        (if headP p s then collapseRuns p h s else h :: collapseRuns p h s)
      else c :: collapseRuns p h s := by
  cases s with
  | nil => simp [collapseRuns, headP]
  | cons d rest => simp [collapseRuns, headP]

theorem collapseRuns_snoc (p : Char → Bool) (h c : Char) (s : List Char) :
    collapseRuns p h (s ++ [c]) =
      if p c then
        (if lastP p s then collapseRuns p h s else collapseRuns p h s ++ [h])
      else collapseRuns p h s ++ [c] := by
  induction s with
  | nil => by_cases hpc : p c <;> simp [collapseRuns, lastP, hpc]
  | cons a s ih =>
    rw [List.cons_append, collapseRuns_cons]
    cases s with
    | nil =>
      by_cases hpa : p a <;> by_cases hpc : p c <;>
        simp [collapseRuns, headP, lastP, hpa, hpc]
    | cons b s' =>
      have hlast : lastP p (a :: b :: s') = lastP p (b :: s') := by
        simp [lastP, List.getLast?_cons_cons]
      have hhead : headP p ((b :: s') ++ [c]) = p b := by simp [headP]
      rw [hhead, ih, collapseRuns_cons p h a (b :: s'), hlast]
      by_cases hpa : p a <;> by_cases hpb : p b <;> by_cases hpc : p c <;>
        by_cases hl : lastP p (b :: s') <;>
          simp [hpa, hpb, hpc, hl, headP]

theorem collapseRuns_reverse (p : Char → Bool) (h : Char) (s : List Char) :
    collapseRuns p h s.reverse = (collapseRuns p h s).reverse := by
  induction s with
  | nil => rfl
  | cons c s ih =>
    rw [List.reverse_cons, collapseRuns_snoc, collapseRuns_cons, lastP_reverse]
    by_cases hpc : p c <;> by_cases hh : headP p s <;>
      simp [hpc, hh, ih]

theorem length_collapseRuns_le (p : Char → Bool) (h : Char) (s : List Char) :
    (collapseRuns p h s).length ≤ s.length := by
  induction s with
  | nil => simp [collapseRuns]
  | cons c s ih =>
    rw [collapseRuns_cons]
    by_cases hpc : p c <;> by_cases hh : headP p s <;>
      simp [hpc, hh] <;> omega

theorem mem_collapseRuns (p : Char → Bool) (h : Char) (s : List Char) (x : Char)
    (hx : x ∈ collapseRuns p h s) : x = h ∨ (x ∈ s ∧ p x = false) := by
  induction s with
  | nil => simp [collapseRuns] at hx
  | cons c s ih =>
    rw [collapseRuns_cons] at hx
    by_cases hpc : p c <;> by_cases hh : headP p s <;> simp [hpc, hh] at hx
    · rcases ih hx with h1 | h2
      · exact Or.inl h1
      · exact Or.inr ⟨List.mem_cons_of_mem _ h2.1, h2.2⟩
    · rcases hx with rfl | hx
      · exact Or.inl rfl
      · rcases ih hx with h1 | h2
        · exact Or.inl h1
        · exact Or.inr ⟨List.mem_cons_of_mem _ h2.1, h2.2⟩
    · rcases hx with rfl | hx
      · exact Or.inr ⟨List.mem_cons_self _ _, by simpa using hpc⟩
      · rcases ih hx with h1 | h2
        · exact Or.inl h1
        · exact Or.inr ⟨List.mem_cons_of_mem _ h2.1, h2.2⟩
    · rcases hx with rfl | hx
      · exact Or.inr ⟨List.mem_cons_self _ _, by simpa using hpc⟩
      · rcases ih hx with h1 | h2
        · exact Or.inl h1
        · exact Or.inr ⟨List.mem_cons_of_mem _ h2.1, h2.2⟩

theorem dropWhile_eq_collapseRuns_cons (p : Char → Bool) (h c : Char) (s : List Char)
    (hc : p c = true) :
    List.dropWhile (fun x => x = h) (collapseRuns p h (c :: s)) =
      List.dropWhile (fun x => x = h) (collapseRuns p h s) := by
  rw [collapseRuns_cons, if_pos hc]
  cases hh : headP p s
  · simp [List.dropWhile_cons]
  · simp

theorem dropWhile_collapseRuns_dropWhile (p q : Char → Bool) (h : Char)
    (hpq : ∀ c, q c = true → p c = true) (s : List Char) :
    List.dropWhile (fun x => x = h) (collapseRuns p h (s.dropWhile q)) =
      List.dropWhile (fun x => x = h) (collapseRuns p h s) := by
  induction s with
  | nil => rfl
  | cons c s ih =>
    by_cases hq : q c
    · rw [List.dropWhile_cons_of_pos hq, ih,
        dropWhile_eq_collapseRuns_cons p h c s (hpq c hq)]
    · rw [List.dropWhile_cons_of_neg hq]

theorem dropTrailing_eq_nil_iff (p : Char → Bool) (s : List Char) :
    dropTrailing p s = [] ↔ ∀ c ∈ s, p c = true := by
  simp [dropTrailing, List.dropWhile_eq_nil_iff]

theorem dropTrailing_cons (p : Char → Bool) (c : Char) (s : List Char)
    (hne : ¬ ∀ x ∈ c :: s, p x = true) :
    dropTrailing p (c :: s) = c :: dropTrailing p s := by
  unfold dropTrailing
  rw [List.reverse_cons, List.dropWhile_append]
  by_cases hd : (List.dropWhile p s.reverse).isEmpty
  · have hs : ∀ x ∈ s, p x = true := by
      have := List.isEmpty_iff.mp hd
      rw [List.dropWhile_eq_nil_iff] at this
      intro x hx; exact this x (by simpa using hx)
    have hc : ¬ p c = true := by
      intro hpc
      exact hne (fun x hx => by
        rcases List.mem_cons.mp hx with rfl | hx'
        · exact hpc
        · exact hs x hx')
    have hs' : List.dropWhile p s.reverse = [] := List.isEmpty_iff.mp hd
    simp [hd, List.dropWhile_cons, hc, hs']
  · simp [hd]

theorem dropWhile_dropTrailing_comm (p : Char → Bool) (s : List Char) :
    List.dropWhile p (dropTrailing p s) = dropTrailing p (List.dropWhile p s) := by
  induction s with
  | nil => rfl
  | cons c s ih =>
    by_cases hpc : p c
    · rw [List.dropWhile_cons_of_pos hpc]
      by_cases hall : ∀ x ∈ c :: s, p x = true
      · rw [(dropTrailing_eq_nil_iff p (c :: s)).mpr hall]
        have hs : List.dropWhile p s = [] :=
          List.dropWhile_eq_nil_iff.mpr (fun x hx => hall x (List.mem_cons_of_mem _ hx))
        simp [hs, dropTrailing]
      · rw [dropTrailing_cons p c s hall, List.dropWhile_cons_of_pos hpc, ih]
    · have hall : ¬ ∀ x ∈ c :: s, p x = true :=
        fun hh => hpc (hh c (List.mem_cons_self _ _))
      rw [List.dropWhile_cons_of_neg hpc, dropTrailing_cons p c s hall,
        List.dropWhile_cons_of_neg hpc]

theorem dropWhile_reverse_eq (p : Char → Bool) (s : List Char) :
    List.dropWhile p s.reverse = (dropTrailing p s).reverse := by
  simp [dropTrailing]

theorem pyStrip_reverse_eq (p : Char → Bool) (x : List Char) :
    pyStrip p x.reverse = (dropTrailing p (List.dropWhile p x)).reverse := calc
  pyStrip p x.reverse = dropTrailing p (List.dropWhile p x.reverse) := rfl
  _ = dropTrailing p ((dropTrailing p x).reverse) := by rw [dropWhile_reverse_eq]
  _ = (List.dropWhile p ((dropTrailing p x).reverse.reverse)).reverse := rfl
  _ = (List.dropWhile p (dropTrailing p x)).reverse := by rw [List.reverse_reverse]
  _ = (dropTrailing p (List.dropWhile p x)).reverse := by
        rw [dropWhile_dropTrailing_comm]

/-- Stripping hyphens after collapsing is insensitive to first stripping
trailing `q`-characters off the input, provided `q`-characters are collapsed
(`q ⊆ p`). -/
theorem pyStrip_collapseRuns_dropTrailing (p q : Char → Bool) (h : Char)
    (hpq : ∀ c, q c = true → p c = true) (s : List Char) :
    pyStrip (fun x => x = h) (collapseRuns p h (dropTrailing q s)) =
      pyStrip (fun x => x = h) (collapseRuns p h s) := by
  have key : List.dropWhile (fun x => x = h) (collapseRuns p h (List.dropWhile q s.reverse)) =
      List.dropWhile (fun x => x = h) (collapseRuns p h s.reverse) :=
    dropWhile_collapseRuns_dropWhile p q h hpq s.reverse
  have hA : collapseRuns p h (dropTrailing q s) =
      (collapseRuns p h (List.dropWhile q s.reverse)).reverse := by
    show collapseRuns p h ((List.dropWhile q s.reverse).reverse) = _
    rw [collapseRuns_reverse]
  have hB : collapseRuns p h s = (collapseRuns p h s.reverse).reverse := by
    conv_lhs => rw [← List.reverse_reverse s]
    rw [collapseRuns_reverse]
  rw [hA, hB, pyStrip_reverse_eq, pyStrip_reverse_eq, key]

/-- Stripping hyphens after collapsing is insensitive to first stripping
leading `q`-characters off the input, provided `q ⊆ p`. -/
theorem pyStrip_collapseRuns_dropWhile (p q : Char → Bool) (h : Char)
    (hpq : ∀ c, q c = true → p c = true) (s : List Char) :
    pyStrip (fun x => x = h) (collapseRuns p h (List.dropWhile q s)) =
      pyStrip (fun x => x = h) (collapseRuns p h s) := by
  unfold pyStrip
  rw [dropWhile_collapseRuns_dropWhile p q h hpq s]

/-- Stripping hyphens after collapsing is insensitive to first stripping the
input on both sides (`pyStrip q`), provided `q ⊆ p`. -/
theorem pyStrip_collapseRuns_pyStrip (p q : Char → Bool) (h : Char)
    (hpq : ∀ c, q c = true → p c = true) (s : List Char) :
    pyStrip (fun x => x = h) (collapseRuns p h (pyStrip q s)) =
      pyStrip (fun x => x = h) (collapseRuns p h s) := by
  have h1 := pyStrip_collapseRuns_dropTrailing p q h hpq (List.dropWhile q s)
  have h2 := pyStrip_collapseRuns_dropWhile p q h hpq s
  calc pyStrip (fun x => x = h) (collapseRuns p h (pyStrip q s))
      = pyStrip (fun x => x = h) (collapseRuns p h (dropTrailing q (List.dropWhile q s))) :=
        rfl
    _ = pyStrip (fun x => x = h) (collapseRuns p h (List.dropWhile q s)) := h1
    _ = pyStrip (fun x => x = h) (collapseRuns p h s) := h2

theorem isSpaceA_subset_not_alnum : ∀ c, isSpaceA c = true → (!isAlnumA c) = true := by
  intro c hc
  simp only [isSpaceA, Bool.or_eq_true, decide_eq_true_eq] at hc
  rcases hc with ((((rfl | rfl) | rfl) | rfl) | rfl) | rfl <;> decide

/-- C9: `models.slugify` lowercases, replaces each maximal run of
non-alphanumeric characters by a single hyphen, strips leading and trailing
hyphens, caps the length at 50, and maps empty input to the empty slug.  The
whitespace `str.strip()` the code interposes before collapsing does not
change the result, so the function coincides with the algorithm exactly as
claimed. -/
theorem C9_models_slugify_is_claimed_algorithm :
    (∀ text, Models.slugify text = slugifyClaimed text) ∧ Models.slugify [] = [] := by
  refine ⟨fun text => ?_, rfl⟩
  by_cases htext : text.isEmpty
  · rw [List.isEmpty_iff.mp htext]; rfl
  · unfold Models.slugify slugifyClaimed
    rw [if_neg htext]
    exact congrArg (List.take 50)
      (pyStrip_collapseRuns_pyStrip (fun c => !isAlnumA c) isSpaceA '-'
        isSpaceA_subset_not_alnum (text.map Char.toLower))

/-! ## add_tag and get_tags (C6) -/

/-- After `add_tag`, the `tags` attribute is truthy. -/
theorem tagsFalsy_add_tag (tags : Option Tags) (name ty : List Char) :
    tagsFalsy (add_tag tags name ty) = false := by
  unfold add_tag
  by_cases hf : tagsFalsy tags
  · rw [if_pos hf]
    by_cases hty : ty = categoryLit
    · rw [if_pos hty]
      by_cases hmem : Models.slugify name ∈ catList ⟨some [], some []⟩
      · rw [if_pos hmem]; rfl
      · rw [if_neg hmem]; simp [tagsFalsy]
    · rw [if_neg hty]
      by_cases hmem : Models.slugify name ∈ colList ⟨some [], some []⟩
      · rw [if_pos hmem]; rfl
      · rw [if_neg hmem]; simp [tagsFalsy]
  · rcases tags with _ | u
    · simp [tagsFalsy] at hf
    · rw [if_neg hf]
      simp only [Option.getD_some]
      by_cases hty : ty = categoryLit
      · rw [if_pos hty]
        by_cases hmem : Models.slugify name ∈ catList u
        · rw [if_pos hmem]; simpa [tagsFalsy] using hf
        · rw [if_neg hmem]; simp [tagsFalsy]
      · rw [if_neg hty]
        by_cases hmem : Models.slugify name ∈ colList u
        · rw [if_pos hmem]; simpa [tagsFalsy] using hf
        · rw [if_neg hmem]; simp [tagsFalsy]

/-- The slugified tag name is in the selected list after `add_tag`. -/
theorem add_tag_mem (tags : Option Tags) (name ty : List Char) :
    ∃ t, add_tag tags name ty = some t ∧
      (if ty = categoryLit then Models.slugify name ∈ catList t
       else Models.slugify name ∈ colList t) := by
  unfold add_tag
  by_cases hty : ty = categoryLit <;> simp only [hty, if_true, if_false, reduceIte]
  · by_cases hmem : Models.slugify name ∈
      catList (if tagsFalsy tags then ⟨some [], some []⟩ else tags.getD ⟨none, none⟩)
    · exact ⟨_, by rw [if_pos hmem], by simpa using hmem⟩
    · refine ⟨_, by rw [if_neg hmem], ?_⟩
      simp [catList]
  · by_cases hmem : Models.slugify name ∈
      colList (if tagsFalsy tags then ⟨some [], some []⟩ else tags.getD ⟨none, none⟩)
    · exact ⟨_, by rw [if_pos hmem], by simpa using hmem⟩
    · refine ⟨_, by rw [if_neg hmem], ?_⟩
      simp [colList]

/-- Members of the selected list appear in `get_tags` when `tags` is truthy. -/
theorem mem_get_tags_of_mem (t : Tags) (s : List Char)
    (hf : tagsFalsy (some t) = false)
    (hs : s ∈ catList t ∨ s ∈ colList t) : s ∈ get_tags (some t) := by
  unfold get_tags
  rw [hf]
  simp only [Bool.false_eq_true, if_false]
  rcases hs with hs | hs
  · rcases hc : t.categories with _ | l
    · rw [catList, hc] at hs; simp at hs
    · rw [catList, hc] at hs
      simp [hc]
      exact Or.inl hs
  · rcases hc : t.collections with _ | l
    · rw [colList, hc] at hs; simp at hs
    · rw [colList, hc] at hs
      simp [hc]
      exact Or.inr hs

/-- Calling `add_tag` a second time with the same arguments leaves the tags
unchanged. -/
theorem add_tag_idem (tags : Option Tags) (name ty : List Char) :
    add_tag (add_tag tags name ty) name ty = add_tag tags name ty := by
  obtain ⟨t', hr, hmem⟩ := add_tag_mem tags name ty
  have hf := tagsFalsy_add_tag tags name ty
  rw [hr] at hf ⊢
  show add_tag (some t') name ty = some t'
  unfold add_tag
  by_cases hty : ty = categoryLit
  · rw [if_pos hty] at hmem ⊢
    rw [if_neg (show ¬ tagsFalsy (some t') = true by rw [hf]; exact Bool.false_ne_true)]
    simp only [Option.getD_some]
    rw [if_pos hmem]
  · rw [if_neg hty] at hmem ⊢
    rw [if_neg (show ¬ tagsFalsy (some t') = true by rw [hf]; exact Bool.false_ne_true)]
    simp only [Option.getD_some]
    rw [if_pos hmem]

/-- C6: for every tags state, `add_tag("Summer 2025", "collection")` followed
by `get_tags()` yields a list containing `"summer-2025"`; and `add_tag` is
idempotent — adding the same tag twice leaves the tag lists identical to
adding it once. -/
theorem C6_add_tag_summer_2025_and_no_duplicates :
    (∀ tags : Option Tags,
      (['s', 'u', 'm', 'm', 'e', 'r', '-', '2', '0', '2', '5'] : List Char) ∈
        get_tags (add_tag tags ['S', 'u', 'm', 'm', 'e', 'r', ' ', '2', '0', '2', '5']
          ['c', 'o', 'l', 'l', 'e', 'c', 't', 'i', 'o', 'n'])) ∧
    (∀ (tags : Option Tags) (name ty : List Char),
      add_tag (add_tag tags name ty) name ty = add_tag tags name ty) := by
  refine ⟨fun tags => ?_, add_tag_idem⟩
  obtain ⟨t', hr, hmem⟩ := add_tag_mem tags
    ['S', 'u', 'm', 'm', 'e', 'r', ' ', '2', '0', '2', '5']
    ['c', 'o', 'l', 'l', 'e', 'c', 't', 'i', 'o', 'n']
  have hf := tagsFalsy_add_tag tags
    ['S', 'u', 'm', 'm', 'e', 'r', ' ', '2', '0', '2', '5']
    ['c', 'o', 'l', 'l', 'e', 'c', 't', 'i', 'o', 'n']
  rw [hr] at hf ⊢
  rw [if_neg (by decide)] at hmem
  have hslug : Models.slugify ['S', 'u', 'm', 'm', 'e', 'r', ' ', '2', '0', '2', '5'] =
      ['s', 'u', 'm', 'm', 'e', 'r', '-', '2', '0', '2', '5'] := by decide
  rw [hslug] at hmem
  exact mem_get_tags_of_mem t' _ hf (Or.inr hmem)

/-! ## Follow and Like uniqueness (C2) -/

theorem is_following_iff (follows : List FollowRow) (a b : Nat) :
    is_following follows a b = true ↔ (a, b) ∈ followKeys follows := by
  simp only [is_following, followKeys, List.any_eq_true, Bool.and_eq_true,
    decide_eq_true_eq, List.mem_map]
  constructor
  · rintro ⟨f, hf, h1, h2⟩
    exact ⟨f, hf, by rw [h1, h2]⟩
  · rintro ⟨f, hf, hkey⟩
    obtain ⟨h1, h2⟩ := Prod.mk.injEq _ _ _ _ ▸ hkey
    exact ⟨f, hf, h1, h2⟩

theorem like_exists_iff (likes : List LikeRow) (u r : Nat) :
    (likes.any (fun l => l.user_id = u && l.recommendation_id = r)) = true ↔
      (u, r) ∈ likeKeys likes := by
  simp only [likeKeys, List.any_eq_true, Bool.and_eq_true, decide_eq_true_eq,
    List.mem_map]
  constructor
  · rintro ⟨l, hl, h1, h2⟩
    exact ⟨l, hl, by rw [h1, h2]⟩
  · rintro ⟨l, hl, hkey⟩
    obtain ⟨h1, h2⟩ := Prod.mk.injEq _ _ _ _ ▸ hkey
    exact ⟨l, hl, h1, h2⟩

/-- Following when not yet following appends exactly one row and keeps the
keys duplicate-free. -/
theorem followKeys_nodup_follow_user (follows : List FollowRow) (cur target : Nat)
    (hnd : (followKeys follows).Nodup) :
    (followKeys (follow_user follows cur target)).Nodup := by
  unfold follow_user
  by_cases hif : is_following follows cur target
  · rw [if_pos hif]; exact hnd
  · rw [if_neg hif]
    have hnot : (cur, target) ∉ followKeys follows := by
      intro hmem
      exact hif ((is_following_iff follows cur target).mpr hmem)
    have : followKeys (follows ++ [⟨cur, target⟩]) =
        followKeys follows ++ [(cur, target)] := by
      simp [followKeys]
    rw [this, List.nodup_append]
    exact ⟨hnd, List.nodup_singleton _, by
      intro x hx hx'
      rcases List.mem_singleton.mp hx' with rfl
      exact hnot hx⟩

/-- The like toggle keeps the keys duplicate-free. -/
theorem likeKeys_nodup_like_recommendation (likes : List LikeRow) (u r : Nat)
    (hnd : (likeKeys likes).Nodup) :
    (likeKeys (like_recommendation likes u r)).Nodup := by
  unfold like_recommendation
  by_cases hif : (likes.any (fun l => l.user_id = u && l.recommendation_id = r)) = true
  · rw [if_pos hif]
    exact List.Nodup.sublist (List.Sublist.map _ (List.eraseP_sublist likes)) hnd
  · rw [if_neg hif]
    have hnot : (u, r) ∉ likeKeys likes := by
      intro hmem
      exact hif ((like_exists_iff likes u r).mpr hmem)
    have : likeKeys (likes ++ [⟨u, r⟩]) = likeKeys likes ++ [(u, r)] := by
      simp [likeKeys]
    rw [this, List.nodup_append]
    exact ⟨hnd, List.nodup_singleton _, by
      intro x hx hx'
      rcases List.mem_singleton.mp hx' with rfl
      exact hnot hx⟩

/-- When the pair is already present (a duplicate like request), the toggle
removes it: the pair is gone afterwards. -/
theorem like_recommendation_removes_duplicate (likes : List LikeRow) (u r : Nat)
    (hnd : (likeKeys likes).Nodup) (hmem : (u, r) ∈ likeKeys likes) :
    (u, r) ∉ likeKeys (like_recommendation likes u r) := by
  have hany : (likes.any (fun l => l.user_id = u && l.recommendation_id = r)) = true :=
    (like_exists_iff likes u r).mpr hmem
  unfold like_recommendation
  rw [if_pos hany]
  obtain ⟨a, ha, hkeya⟩ := List.mem_map.mp hmem
  have hpa : (fun l => l.user_id = u && l.recommendation_id = r) a = true := by
    obtain ⟨h1, h2⟩ := Prod.mk.injEq _ _ _ _ ▸ hkeya
    simp [h1, h2]
  obtain ⟨b, l₁, l₂, hl₁, hpb, hsplit, herase⟩ :=
    @List.exists_of_eraseP _ (fun l => l.user_id = u && l.recommendation_id = r)
      likes a ha hpa
  have hkeyb : (b.user_id, b.recommendation_id) = (u, r) := by
    simp only [Bool.and_eq_true, decide_eq_true_eq] at hpb
    rw [hpb.1, hpb.2]
  rw [herase]
  intro hmem'
  have hmem'' : (u, r) ∈ likeKeys l₁ ∨ (u, r) ∈ likeKeys l₂ := by
    simpa [likeKeys] using hmem'
  have hkeys : likeKeys likes = likeKeys l₁ ++
      (b.user_id, b.recommendation_id) :: likeKeys l₂ := by
    rw [hsplit]; simp [likeKeys]
  rcases hmem'' with hm | hm
  · obtain ⟨c, hc, hkeyc⟩ := List.mem_map.mp hm
    obtain ⟨h1, h2⟩ := Prod.mk.injEq _ _ _ _ ▸ hkeyc
    exact hl₁ c hc (by simp [h1, h2])
  · rw [hkeys] at hnd
    have := (List.nodup_append.mp hnd).2.1
    have hbnot : (b.user_id, b.recommendation_id) ∉ likeKeys l₂ :=
      (List.nodup_cons.mp this).1
    rw [hkeyb] at hbnot
    exact hbnot hm

/-- C2 counterexample: a duplicate like request is neither a no-op nor a
rejection — the like handler is a toggle, so with the Like row (1,1) present
a second like request by user 1 deletes the row. -/
theorem C2_counterexample_like_toggle :
    like_recommendation [⟨1, 1⟩] 1 1 ≠ [⟨1, 1⟩] ∧
      like_recommendation [⟨1, 1⟩] 1 1 = [] := by
  constructor
  · intro h
    have : ([] : List LikeRow) = [⟨1, 1⟩] := by
      rw [← h]; rfl
    simp at this
  · rfl

/-- C2 amended: duplicate follow requests are no-ops; the (follower,
followed) and (user, recommendation) key sets stay duplicate-free under
`follow_user` and `like_recommendation` (no second row is ever created); a
duplicate like request, however, is a toggle that removes the existing Like
row. -/
theorem C2_follow_like_row_uniqueness
    (follows : List FollowRow) (likes : List LikeRow) (cur target u r : Nat)
    (hndF : (followKeys follows).Nodup) (hndL : (likeKeys likes).Nodup) :
    (followKeys (follow_user follows cur target)).Nodup ∧
    (is_following follows cur target = true →
      follow_user follows cur target = follows) ∧
    (likeKeys (like_recommendation likes u r)).Nodup ∧
    ((u, r) ∈ likeKeys likes → (u, r) ∉ likeKeys (like_recommendation likes u r)) := by
  refine ⟨followKeys_nodup_follow_user follows cur target hndF, ?_,
    likeKeys_nodup_like_recommendation likes u r hndL,
    fun hmem => like_recommendation_removes_duplicate likes u r hndL hmem⟩
  intro hif
  unfold follow_user
  rw [if_pos hif]

/-- Concrete instance of `C2_follow_like_row_uniqueness`. -/
theorem C2_follow_like_row_uniqueness_witness :
    ((followKeys [⟨1, 2⟩]).Nodup ∧ (likeKeys [⟨1, 1⟩]).Nodup) ∧
    ((followKeys (follow_user [⟨1, 2⟩] 1 2)).Nodup ∧
      (is_following [⟨1, 2⟩] 1 2 = true → follow_user [⟨1, 2⟩] 1 2 = [⟨1, 2⟩]) ∧
      (likeKeys (like_recommendation [⟨1, 1⟩] 1 1)).Nodup ∧
      ((1, 1) ∈ likeKeys [⟨1, 1⟩] →
        (1, 1) ∉ likeKeys (like_recommendation [⟨1, 1⟩] 1 1))) :=
  ⟨⟨by decide, by decide⟩,
    C2_follow_like_row_uniqueness [⟨1, 2⟩] [⟨1, 1⟩] 1 2 1 1 (by decide) (by decide)⟩

/-! ## Registration and verification flow (C4) -/

/-- C4: valid registration data stores a pending-verification record whose
code is the sampled 6-digit code and whose expiry lies 10 minutes ahead,
without creating a User; the correct code at or before the expiry creates a
verified User and puts its id in the session; any request to the
verification endpoint after the expiry deletes the pending record and
redirects back to registration. -/
theorem C4_registration_flow :
    (∀ (st : AuthState) (username email pw code : List Char) (now : Nat),
      st.users.any (fun u => u.username = username) = false →
      st.users.any (fun u => u.email = email) = false →
      code.length = 6 → (∀ c ∈ code, c.isDigit = true) →
      register st username email pw code now =
        ({ st with pending_user := some ⟨username, email, pw, code, now + 10⟩ },
          RegisterOutcome.pendingStored) ∧
      (register st username email pw code now).1.users = st.users ∧
      (∃ p, (register st username email pw code now).1.pending_user = some p ∧
        p.verification_code.length = 6 ∧ (∀ c ∈ p.verification_code, c.isDigit = true) ∧
        p.expires_at = now + 10)) ∧
    (∀ (st : AuthState) (p : PendingUser) (raw : List Char) (now newId : Nat),
      st.pending_user = some p → ¬ p.expires_at < now →
      pyStrip isSpaceA raw = p.verification_code →
      verify_registration st (some raw) now newId =
        ({ users := st.users ++ [⟨newId, p.username, p.email, p.password_hash, true⟩],
           pending_user := none, session_user_id := some newId },
          VerifyOutcome.verified)) ∧
    (∀ (st : AuthState) (p : PendingUser) (submitted : Option (List Char))
        (now newId : Nat),
      st.pending_user = some p → p.expires_at < now →
      verify_registration st submitted now newId =
        ({ st with pending_user := none }, VerifyOutcome.expiredRedirectRegister)) := by
  refine ⟨?_, ?_, ?_⟩
  · intro st username email pw code now hname hemail hlen hdig
    have hreg : register st username email pw code now =
        ({ st with pending_user := some ⟨username, email, pw, code, now + 10⟩ },
          RegisterOutcome.pendingStored) := by
      unfold register
      rw [hname, hemail]
      simp
    exact ⟨hreg, by rw [hreg], ⟨_, by rw [hreg], hlen, hdig, rfl⟩⟩
  · intro st p raw now newId hp hexp hcode
    unfold verify_registration
    rw [hp]
    simp only [if_neg hexp, hcode]
    simp
  · intro st p submitted now newId hp hexp
    unfold verify_registration
    rw [hp]
    simp only [if_pos hexp]

/-- Concrete instance of `C4_registration_flow`: register a user, verify with
the correct code at minute 5, and observe the expiry cleanup at minute 11. -/
theorem C4_registration_flow_witness :
    (register ⟨[], none, none⟩ ['b'] ['e'] ['p'] ['1', '2', '3', '4', '5', '6'] 0 =
        (⟨[], some ⟨['b'], ['e'], ['p'], ['1', '2', '3', '4', '5', '6'], 10⟩, none⟩,
          RegisterOutcome.pendingStored) ∧
      (register ⟨[], none, none⟩ ['b'] ['e'] ['p'] ['1', '2', '3', '4', '5', '6'] 0).1.users
        = [] ∧
      (∃ p, (register ⟨[], none, none⟩ ['b'] ['e'] ['p']
          ['1', '2', '3', '4', '5', '6'] 0).1.pending_user = some p ∧
        p.verification_code.length = 6 ∧ (∀ c ∈ p.verification_code, c.isDigit = true) ∧
        p.expires_at = 0 + 10)) ∧
    (verify_registration
        ⟨[], some ⟨['b'], ['e'], ['p'], ['1', '2', '3', '4', '5', '6'], 10⟩, none⟩
        (some ['1', '2', '3', '4', '5', '6']) 5 1 =
      (⟨[⟨1, ['b'], ['e'], ['p'], true⟩], none, some 1⟩, VerifyOutcome.verified)) ∧
    (verify_registration
        ⟨[], some ⟨['b'], ['e'], ['p'], ['1', '2', '3', '4', '5', '6'], 10⟩, none⟩
        (some ['9', '9', '9', '9', '9', '9']) 11 1 =
      (⟨[], none, none⟩, VerifyOutcome.expiredRedirectRegister)) :=
  ⟨C4_registration_flow.1 ⟨[], none, none⟩ ['b'] ['e'] ['p']
      ['1', '2', '3', '4', '5', '6'] 0 (by decide) (by decide) (by decide) (by decide),
    C4_registration_flow.2.1
      ⟨[], some ⟨['b'], ['e'], ['p'], ['1', '2', '3', '4', '5', '6'], 10⟩, none⟩
      ⟨['b'], ['e'], ['p'], ['1', '2', '3', '4', '5', '6'], 10⟩
      ['1', '2', '3', '4', '5', '6'] 5 1 rfl (by decide) (by decide),
    C4_registration_flow.2.2
      ⟨[], some ⟨['b'], ['e'], ['p'], ['1', '2', '3', '4', '5', '6'], 10⟩, none⟩
      ⟨['b'], ['e'], ['p'], ['1', '2', '3', '4', '5', '6'], 10⟩
      (some ['9', '9', '9', '9', '9', '9']) 11 1 rfl (by decide)⟩

/-! ## Comment deletion authorization (C5) -/

/-- C5 counterexample: the route resolves the profile with
`filter_by(slug=…, is_public=True).first_or_404()`, so on a private profile
even the comment's author cannot delete their comment — the claim's
"deleted exactly when author or owner" fails.  Here user 7 is the author of
comment 1, yet the request 404s and the comment persists. -/
theorem C5_counterexample_private_profile :
    (delete_comment ⟨[⟨1, 10, ['p'], false⟩], [⟨1, 1, ['c']⟩], [⟨1, 1⟩], [],
        [⟨1, 7, 1⟩], []⟩ ['p'] ['c'] 1 1 7).2 = DeleteCommentOutcome.notFound ∧
    (delete_comment ⟨[⟨1, 10, ['p'], false⟩], [⟨1, 1, ['c']⟩], [⟨1, 1⟩], [],
        [⟨1, 7, 1⟩], []⟩ ['p'] ['c'] 1 1 7).1 =
      ⟨[⟨1, 10, ['p'], false⟩], [⟨1, 1, ['c']⟩], [⟨1, 1⟩], [], [⟨1, 7, 1⟩], []⟩ ∧
    (⟨1, 7, 1⟩ : CommentRow).user_id = 7 := by
  refine ⟨rfl, rfl, rfl⟩

/-- C5 amended: whenever the deletion request does not end in `deleted`, the
database is unchanged; and when the request path resolves (public profile,
matching slugs, comment on that recommendation), deletion happens exactly
when the acting user is the comment's author or the profile owner — in the
forbidden case the state is unchanged, in the deleted case the comment row
is gone (comment ids assumed unique). -/
theorem C5_delete_comment_authorization :
    (∀ (db : Db) (pslug cslug : List Char) (rid cid cur : Nat),
      (delete_comment db pslug cslug rid cid cur).2 ≠ DeleteCommentOutcome.deleted →
      (delete_comment db pslug cslug rid cid cur).1 = db) ∧
    (∀ (db : Db) (pslug cslug : List Char) (rid cid cur : Nat)
        (profile : ProfileRow) (category : CategoryRow) (rec : RecRow) (cm : CommentRow),
      db.profiles.find? (fun p => p.slug = pslug && p.is_public) = some profile →
      db.categories.find?
        (fun c => c.profile_id = profile.id && c.slug = cslug) = some category →
      db.recommendations.find?
        (fun r => r.category_id = category.id && r.id = rid) = some rec →
      db.comments.find?
        (fun c => c.id = cid && c.recommendation_id = rec.id) = some cm →
      (db.comments.map (fun c => c.id)).Nodup →
      (((delete_comment db pslug cslug rid cid cur).2 = DeleteCommentOutcome.deleted ↔
          (cm.user_id = cur ∨ profile.user_id = cur)) ∧
        (¬(cm.user_id = cur ∨ profile.user_id = cur) →
          delete_comment db pslug cslug rid cid cur =
            (db, DeleteCommentOutcome.forbidden)) ∧
        ((cm.user_id = cur ∨ profile.user_id = cur) →
          (delete_comment db pslug cslug rid cid cur).1.comments =
            db.comments.eraseP (fun c => c.id = cid && c.recommendation_id = rec.id) ∧
          cm ∉ (delete_comment db pslug cslug rid cid cur).1.comments))) := by
  constructor
  · intro db pslug cslug rid cid cur hne
    cases hp : db.profiles.find? (fun p => p.slug = pslug && p.is_public) with
    | none =>
      have heq : delete_comment db pslug cslug rid cid cur =
          (db, DeleteCommentOutcome.notFound) := by
        unfold delete_comment
        simp only [hp]
      rw [heq]
    | some profile =>
      cases hc : db.categories.find?
          (fun c => c.profile_id = profile.id && c.slug = cslug) with
      | none =>
        have heq : delete_comment db pslug cslug rid cid cur =
            (db, DeleteCommentOutcome.notFound) := by
          unfold delete_comment
          simp only [hp, hc]
        rw [heq]
      | some category =>
        cases hr : db.recommendations.find?
            (fun r => r.category_id = category.id && r.id = rid) with
        | none =>
          have heq : delete_comment db pslug cslug rid cid cur =
              (db, DeleteCommentOutcome.notFound) := by
            unfold delete_comment
            simp only [hp, hc, hr]
          rw [heq]
        | some rec =>
          cases hm : db.comments.find?
              (fun c => c.id = cid && c.recommendation_id = rec.id) with
          | none =>
            have heq : delete_comment db pslug cslug rid cid cur =
                (db, DeleteCommentOutcome.notFound) := by
              unfold delete_comment
              simp only [hp, hc, hr, hm]
            rw [heq]
          | some cm =>
            by_cases hauth : (cm.user_id = cur || profile.user_id = cur) = true
            · have heq : delete_comment db pslug cslug rid cid cur =
                  ({ profiles := db.profiles, categories := db.categories,
                     recommendations := db.recommendations, likes := db.likes,
                     comments := db.comments.eraseP
                       (fun c => c.id = cid && c.recommendation_id = rec.id),
                     follows := db.follows }, DeleteCommentOutcome.deleted) := by
                unfold delete_comment
                simp only [hp, hc, hr, hm, hauth, if_true]
              rw [heq] at hne
              simp at hne
            · have heq : delete_comment db pslug cslug rid cid cur =
                  (db, DeleteCommentOutcome.forbidden) := by
                unfold delete_comment
                simp only [hp, hc, hr, hm]
                rw [if_neg hauth]
              rw [heq]
  · intro db pslug cslug rid cid cur profile category rec cm hp hc hr hm hnd
    have hcm_mem : cm ∈ db.comments := List.mem_of_find?_eq_some hm
    have hcm_p := List.find?_some hm
    have hresult : ∀ b : Bool, (cm.user_id = cur || profile.user_id = cur) = b →
        delete_comment db pslug cslug rid cid cur =
          (if b then
            ({ profiles := db.profiles, categories := db.categories,
               recommendations := db.recommendations, likes := db.likes,
               comments := db.comments.eraseP
                 (fun c => c.id = cid && c.recommendation_id = rec.id),
               follows := db.follows }, DeleteCommentOutcome.deleted)
          else (db, DeleteCommentOutcome.forbidden)) := by
      intro b hb
      unfold delete_comment
      simp only [hp, hc, hr, hm, hb]
    by_cases hauth : (cm.user_id = cur ∨ profile.user_id = cur)
    · have hb : (cm.user_id = cur || profile.user_id = cur) = true := by
        simpa using hauth
      have heq := hresult true hb
      rw [if_pos rfl] at heq
      have hgone : cm ∉ db.comments.eraseP
          (fun c => c.id = cid && c.recommendation_id = rec.id) := by
        obtain ⟨b', l₁, l₂, hl₁, hpb, hsplit, herase⟩ :=
          @List.exists_of_eraseP _ (fun c => c.id = cid && c.recommendation_id = rec.id)
            db.comments cm hcm_mem hcm_p
        rw [herase]
        intro hmem'
        simp only [Bool.and_eq_true, decide_eq_true_eq] at hpb hcm_p
        have hkeys : db.comments.map (fun c => c.id) =
            (l₁.map (fun c => c.id)) ++ b'.id :: (l₂.map (fun c => c.id)) := by
          rw [hsplit]; simp
        rcases List.mem_append.mp hmem' with hm1 | hm2
        · exact hl₁ cm hm1 (by simp [hcm_p.1, hcm_p.2])
        · rw [hkeys] at hnd
          have hnotin : b'.id ∉ l₂.map (fun c => c.id) :=
            (List.nodup_cons.mp (List.nodup_append.mp hnd).2.1).1
          have : cm.id ∈ l₂.map (fun c => c.id) :=
            List.mem_map_of_mem (fun c => c.id) hm2
          rw [hcm_p.1] at this
          rw [hpb.1] at hnotin
          exact hnotin this
      refine ⟨⟨fun _ => hauth, fun _ => by rw [heq]⟩, fun hno => absurd hauth hno,
        fun _ => ⟨by rw [heq], by rw [heq]; exact hgone⟩⟩
    · have hb : (cm.user_id = cur || profile.user_id = cur) = false := by
        rcases not_or.mp hauth with ⟨h1, h2⟩
        simp [h1, h2]
      have heq := hresult false hb
      rw [if_neg (by simp)] at heq
      refine ⟨⟨fun hdel => ?_, fun hyes => absurd hyes hauth⟩,
        fun _ => heq, fun hyes => absurd hyes hauth⟩
      rw [heq] at hdel
      simp at hdel

/-- Concrete instance of `C5_delete_comment_authorization`: on a public
profile, a stranger (user 9) is rejected and the database is unchanged. -/
theorem C5_delete_comment_authorization_witness :
    ((delete_comment ⟨[⟨1, 10, ['p'], true⟩], [⟨1, 1, ['c']⟩], [⟨1, 1⟩], [],
        [⟨1, 7, 1⟩], []⟩ ['p'] ['c'] 1 1 9).2 ≠ DeleteCommentOutcome.deleted →
      (delete_comment ⟨[⟨1, 10, ['p'], true⟩], [⟨1, 1, ['c']⟩], [⟨1, 1⟩], [],
        [⟨1, 7, 1⟩], []⟩ ['p'] ['c'] 1 1 9).1 =
        ⟨[⟨1, 10, ['p'], true⟩], [⟨1, 1, ['c']⟩], [⟨1, 1⟩], [], [⟨1, 7, 1⟩], []⟩) ∧
    (((delete_comment ⟨[⟨1, 10, ['p'], true⟩], [⟨1, 1, ['c']⟩], [⟨1, 1⟩], [],
        [⟨1, 7, 1⟩], []⟩ ['p'] ['c'] 1 1 9).2 = DeleteCommentOutcome.deleted ↔
        ((⟨1, 7, 1⟩ : CommentRow).user_id = 9 ∨
          (⟨1, 10, ['p'], true⟩ : ProfileRow).user_id = 9)) ∧
      (¬((⟨1, 7, 1⟩ : CommentRow).user_id = 9 ∨
          (⟨1, 10, ['p'], true⟩ : ProfileRow).user_id = 9) →
        delete_comment ⟨[⟨1, 10, ['p'], true⟩], [⟨1, 1, ['c']⟩], [⟨1, 1⟩], [],
          [⟨1, 7, 1⟩], []⟩ ['p'] ['c'] 1 1 9 =
          (⟨[⟨1, 10, ['p'], true⟩], [⟨1, 1, ['c']⟩], [⟨1, 1⟩], [], [⟨1, 7, 1⟩], []⟩,
            DeleteCommentOutcome.forbidden)) ∧
      (((⟨1, 7, 1⟩ : CommentRow).user_id = 9 ∨
          (⟨1, 10, ['p'], true⟩ : ProfileRow).user_id = 9) →
        (delete_comment ⟨[⟨1, 10, ['p'], true⟩], [⟨1, 1, ['c']⟩], [⟨1, 1⟩], [],
          [⟨1, 7, 1⟩], []⟩ ['p'] ['c'] 1 1 9).1.comments =
          [⟨1, 7, 1⟩].eraseP (fun c => c.id = 1 && c.recommendation_id = 1) ∧
        (⟨1, 7, 1⟩ : CommentRow) ∉ (delete_comment ⟨[⟨1, 10, ['p'], true⟩],
          [⟨1, 1, ['c']⟩], [⟨1, 1⟩], [], [⟨1, 7, 1⟩], []⟩ ['p'] ['c'] 1 1 9).1.comments)) :=
  ⟨C5_delete_comment_authorization.1
      ⟨[⟨1, 10, ['p'], true⟩], [⟨1, 1, ['c']⟩], [⟨1, 1⟩], [], [⟨1, 7, 1⟩], []⟩
      ['p'] ['c'] 1 1 9,
    C5_delete_comment_authorization.2
      ⟨[⟨1, 10, ['p'], true⟩], [⟨1, 1, ['c']⟩], [⟨1, 1⟩], [], [⟨1, 7, 1⟩], []⟩
      ['p'] ['c'] 1 1 9 ⟨1, 10, ['p'], true⟩ ⟨1, 1, ['c']⟩ ⟨1, 1⟩ ⟨1, 7, 1⟩
      (by decide) (by decide) (by decide) (by decide) (by decide)⟩

/-! ## Cascade deletion (C8) -/

theorem foldl_delete_recommendation_cascade (ids : List Nat) (db : Db) :
    ids.foldl delete_recommendation_cascade db =
      { profiles := db.profiles, categories := db.categories,
        recommendations := db.recommendations.filter (fun r => r.id ∉ ids),
        likes := db.likes.filter (fun l => l.recommendation_id ∉ ids),
        comments := db.comments.filter (fun c => c.recommendation_id ∉ ids),
        follows := db.follows } := by
  induction ids generalizing db with
  | nil =>
    cases db
    simp
  | cons i ids ih =>
    rw [List.foldl_cons, ih]
    unfold delete_recommendation_cascade
    rw [Db.mk.injEq]
    refine ⟨rfl, rfl, ?_, ?_, ?_, rfl⟩ <;>
      · rw [List.filter_filter]
        apply List.filter_congr
        intro a _
        simp [List.mem_cons, not_or, Bool.and_comm]

theorem mem_owned_ids_iff (db : Db) (cid x : Nat) :
    x ∈ (db.recommendations.filter (fun r => r.category_id = cid)).map
        (fun r => r.id) ↔
      ∃ r ∈ db.recommendations, r.id = x ∧ r.category_id = cid := by
  simp [List.mem_map, List.mem_filter]
  tauto

/-- C8: deleting a Recommendation removes exactly its Likes and Comments
together with the row itself; deleting a Category removes exactly its
Recommendations and, transitively, their Likes and Comments (recommendation
ids assumed unique); all other rows survive. -/
theorem C8_cascade_deletion :
    (∀ (db : Db) (rid : Nat),
      (delete_recommendation_cascade db rid).profiles = db.profiles ∧
      (delete_recommendation_cascade db rid).categories = db.categories ∧
      (delete_recommendation_cascade db rid).follows = db.follows ∧
      (∀ r, r ∈ (delete_recommendation_cascade db rid).recommendations ↔
        r ∈ db.recommendations ∧ r.id ≠ rid) ∧
      (∀ l, l ∈ (delete_recommendation_cascade db rid).likes ↔
        l ∈ db.likes ∧ l.recommendation_id ≠ rid) ∧
      (∀ c, c ∈ (delete_recommendation_cascade db rid).comments ↔
        c ∈ db.comments ∧ c.recommendation_id ≠ rid)) ∧
    (∀ (db : Db) (cid : Nat),
      (db.recommendations.map (fun r => r.id)).Nodup →
      ((delete_category_cascade db cid).profiles = db.profiles ∧
       (delete_category_cascade db cid).follows = db.follows ∧
       (∀ c, c ∈ (delete_category_cascade db cid).categories ↔
         c ∈ db.categories ∧ c.id ≠ cid) ∧
       (∀ r, r ∈ (delete_category_cascade db cid).recommendations ↔
         r ∈ db.recommendations ∧ r.category_id ≠ cid) ∧
       (∀ l, l ∈ (delete_category_cascade db cid).likes ↔
         l ∈ db.likes ∧
           ¬∃ r ∈ db.recommendations, r.id = l.recommendation_id ∧
             r.category_id = cid) ∧
       (∀ cm, cm ∈ (delete_category_cascade db cid).comments ↔
         cm ∈ db.comments ∧
           ¬∃ r ∈ db.recommendations, r.id = cm.recommendation_id ∧
             r.category_id = cid))) := by
  constructor
  · intro db rid
    refine ⟨rfl, rfl, rfl, ?_, ?_, ?_⟩ <;>
      · intro x
        simp [delete_recommendation_cascade, List.mem_filter]
  · intro db cid hnd
    have hfold := foldl_delete_recommendation_cascade
      ((db.recommendations.filter (fun r => r.category_id = cid)).map (fun r => r.id)) db
    have hdef : delete_category_cascade db cid =
        { profiles := db.profiles, categories := db.categories.filter (fun c => c.id ≠ cid),
          recommendations := db.recommendations.filter (fun r => r.id ∉
            (db.recommendations.filter (fun r => r.category_id = cid)).map (fun r => r.id)),
          likes := db.likes.filter (fun l => l.recommendation_id ∉
            (db.recommendations.filter (fun r => r.category_id = cid)).map (fun r => r.id)),
          comments := db.comments.filter (fun c => c.recommendation_id ∉
            (db.recommendations.filter (fun r => r.category_id = cid)).map (fun r => r.id)),
          follows := db.follows } := by
      simp only [delete_category_cascade]
      rw [hfold]
    rw [hdef]
    refine ⟨rfl, rfl, ?_, ?_, ?_, ?_⟩
    · intro c
      simp [List.mem_filter]
    · intro r
      simp only [List.mem_filter, decide_eq_true_eq]
      constructor
      · rintro ⟨hr, hnot⟩
        refine ⟨hr, fun hcat => ?_⟩
        rw [mem_owned_ids_iff] at hnot
        exact hnot ⟨r, hr, rfl, hcat⟩
      · rintro ⟨hr, hcat⟩
        refine ⟨hr, ?_⟩
        rw [mem_owned_ids_iff]
        rintro ⟨r', hr', hid, hcat'⟩
        have : r' = r := List.inj_on_of_nodup_map hnd hr' hr hid
        rw [this] at hcat'
        exact hcat hcat'
    · intro l
      simp only [List.mem_filter, decide_eq_true_eq]
      rw [mem_owned_ids_iff]
    · intro cm
      simp only [List.mem_filter, decide_eq_true_eq]
      rw [mem_owned_ids_iff]

/-- Concrete instance of `C8_cascade_deletion`: deleting category 1 removes
its recommendation 1 and that recommendation's like and comment, while
category 2's recommendation 2 and its like survive. -/
theorem C8_cascade_deletion_witness :
    (([⟨1, 1⟩, ⟨2, 2⟩] : List RecRow).map (fun r => r.id)).Nodup ∧
    (∀ r, r ∈ (delete_category_cascade
        ⟨[], [⟨1, 5, ['a']⟩, ⟨2, 5, ['b']⟩], [⟨1, 1⟩, ⟨2, 2⟩],
          [⟨7, 1⟩, ⟨7, 2⟩], [⟨1, 7, 1⟩], []⟩ 1).recommendations ↔
      r ∈ ([⟨1, 1⟩, ⟨2, 2⟩] : List RecRow) ∧ r.category_id ≠ 1) :=
  ⟨by decide,
    ((C8_cascade_deletion.2
      ⟨[], [⟨1, 5, ['a']⟩, ⟨2, 5, ['b']⟩], [⟨1, 1⟩, ⟨2, 2⟩],
        [⟨7, 1⟩, ⟨7, 2⟩], [⟨1, 7, 1⟩], []⟩ 1 (by decide)).2.2.2.1)⟩

/-! ## Profile slug collision resolution (C7) -/

theorem exists_free_candidate (existing : List (List Char)) (base : List Char) :
    ∃ k, profileCandidate base k ∉ existing := by
  classical
  refine ⟨10 ^ (existing.map List.length).sum, fun hmem => ?_⟩
  set S := (existing.map List.length).sum with hS
  have hpow : (0 : Nat) < 10 ^ S := Nat.pos_pow_of_pos S (by norm_num)
  obtain ⟨k, hk⟩ : ∃ k, 10 ^ S = k + 1 := ⟨10 ^ S - 1, by omega⟩
  rw [hk] at hmem
  have hne : (10 : Nat) ^ S ≠ 0 := by omega
  have hdig : (Nat.digits 10 (k + 1)).length = S + 1 := by
    rw [← hk, Nat.digits_len 10 (10 ^ S) (by norm_num) hne, Nat.log_pow (by norm_num)]
  have hnd : (natDecimal (k + 1)).length = S + 1 := by
    rw [natDecimal, List.length_reverse, List.length_map, hdig]
  have hlen : (profileCandidate base (k + 1)).length = base.length + 1 + (S + 1) := by
    show (base ++ '-' :: natDecimal (k + 1)).length = _
    rw [List.length_append, List.length_cons, hnd]
    omega
  have hle : (profileCandidate base (k + 1)).length ≤ S := by
    have := List.single_le_sum (fun (x : Nat) (_ : x ∈ existing.map List.length) =>
      Nat.zero_le x) (profileCandidate base (k + 1)).length
      (List.mem_map_of_mem List.length hmem)
    simpa [← hS] using this
  omega

theorem unique_profile_slug_eq (existing : List (List Char)) (base : List Char) :
    unique_profile_slug existing base =
      profileCandidate base (Nat.find (exists_free_candidate existing base)) := rfl

/-- C7: the created Profile's slug is not present in the table (so slug
uniqueness is preserved); creation stores the bare slugified name when it is
free, and otherwise the first free candidate among `base-1`, `base-2`, …, in
increasing suffix order. -/
theorem C7_profile_slug_unique_with_suffix :
    (∀ (slugs : List (List Char)) (name : List Char),
      slugs.Nodup → (dashboard_create_profile slugs name).Nodup) ∧
    (∀ (slugs : List (List Char)) (base : List Char),
      unique_profile_slug slugs base ∉ slugs) ∧
    (∀ (slugs : List (List Char)) (base : List Char),
      (base ∉ slugs → unique_profile_slug slugs base = base) ∧
      (base ∈ slugs →
        ∃ k, 1 ≤ k ∧
          unique_profile_slug slugs base = base ++ '-' :: natDecimal k ∧
          (∀ j, 1 ≤ j → j < k → base ++ '-' :: natDecimal j ∈ slugs))) := by
  have hfree : ∀ (slugs : List (List Char)) (base : List Char),
      unique_profile_slug slugs base ∉ slugs := by
    intro slugs base
    rw [unique_profile_slug_eq]
    exact Nat.find_spec (exists_free_candidate slugs base)
  refine ⟨?_, hfree, ?_⟩
  · intro slugs name hnd
    unfold dashboard_create_profile
    rw [List.nodup_append]
    exact ⟨hnd, List.nodup_singleton _, by
      intro x hx hx'
      rcases List.mem_singleton.mp hx' with rfl
      exact hfree slugs (Utils.slugify name) hx⟩
  · intro slugs base
    constructor
    · intro hnotin
      rw [unique_profile_slug_eq]
      have h0 : Nat.find (exists_free_candidate slugs base) = 0 :=
        (Nat.find_eq_zero (exists_free_candidate slugs base)).mpr hnotin
      rw [h0]
      rfl
    · intro hin
      rw [unique_profile_slug_eq]
      set K := Nat.find (exists_free_candidate slugs base) with hK
      have hK0 : K ≠ 0 := by
        intro h0
        have := Nat.find_spec (exists_free_candidate slugs base)
        rw [← hK, h0] at this
        exact this hin
      obtain ⟨j, hj⟩ : ∃ j, K = j + 1 := ⟨K - 1, by omega⟩
      refine ⟨K, by omega, ?_, ?_⟩
      · rw [hj]; rfl
      · intro i h1 hiK
        have := Nat.find_min (exists_free_candidate slugs base) (by omega : i < K)
        obtain ⟨i', hi'⟩ : ∃ i', i = i' + 1 := ⟨i - 1, by omega⟩
        rw [hi'] at this ⊢
        show base ++ '-' :: natDecimal (i' + 1) ∈ slugs
        simpa [profileCandidate] using this

/-- Concrete instance of `C7_profile_slug_unique_with_suffix`. -/
theorem C7_profile_slug_unique_with_suffix_witness :
    (([['a']] : List (List Char)).Nodup ∧
      (dashboard_create_profile [['a']] ['a']).Nodup) ∧
    (Utils.slugify ['a'] ∈ ([['a']] : List (List Char)) ∧
      ∃ k, 1 ≤ k ∧
        unique_profile_slug [['a']] (Utils.slugify ['a']) =
          Utils.slugify ['a'] ++ '-' :: natDecimal k ∧
        (∀ j, 1 ≤ j → j < k →
          Utils.slugify ['a'] ++ '-' :: natDecimal j ∈ ([['a']] : List (List Char)))) :=
  ⟨⟨by decide, C7_profile_slug_unique_with_suffix.1 [['a']] ['a'] (by decide)⟩,
    ⟨by decide, (C7_profile_slug_unique_with_suffix.2.2 [['a']]
      (Utils.slugify ['a'])).2 (by decide)⟩⟩

/-! ## Character-level facts about lowercasing and slug characters -/

theorem charLe_iff (a b : Char) : a ≤ b ↔ a.toNat ≤ b.toNat := by
  rw [Char.le_def, UInt32.le_def, BitVec.le_def]
  rfl

theorem char_eq_of_toNat_eq (a b : Char) (h : a.toNat = b.toNat) : a = b := by
  apply Char.eq_of_val_eq
  apply UInt32.eq_of_toBitVec_eq
  exact BitVec.eq_of_toNat_eq h

theorem char_eq_iff_toNat (a b : Char) : a = b ↔ a.toNat = b.toNat :=
  ⟨fun h => by rw [h], char_eq_of_toNat_eq a b⟩

theorem toNat_ofNat_valid (n : Nat) (h : n.isValidChar) : (Char.ofNat n).toNat = n := by
  unfold Char.ofNat
  rw [dif_pos h]
  rfl

theorem char_toNat_toLower (c : Char) :
    (Char.toLower c).toNat =
      if c.toNat ≥ 65 ∧ c.toNat ≤ 90 then c.toNat + 32 else c.toNat := by
  unfold Char.toLower
  by_cases h : c.toNat ≥ 65 ∧ c.toNat ≤ 90
  · rw [if_pos h, if_pos h]
    exact toNat_ofNat_valid _ (Or.inl (by omega))
  · rw [if_neg h, if_neg h]

theorem isAlnumA_iff (c : Char) : isAlnumA c = true ↔
    (97 ≤ c.toNat ∧ c.toNat ≤ 122) ∨ (65 ≤ c.toNat ∧ c.toNat ≤ 90) ∨
      (48 ≤ c.toNat ∧ c.toNat ≤ 57) := by
  unfold isAlnumA
  simp only [Bool.or_eq_true, Bool.and_eq_true, decide_eq_true_eq, charLe_iff]
  norm_num [show ('a').toNat = 97 from rfl, show ('z').toNat = 122 from rfl,
    show ('A').toNat = 65 from rfl, show ('Z').toNat = 90 from rfl,
    show ('0').toNat = 48 from rfl, show ('9').toNat = 57 from rfl]
  tauto

theorem isSlugChar_iff (c : Char) : isSlugChar c = true ↔
    (97 ≤ c.toNat ∧ c.toNat ≤ 122) ∨ (48 ≤ c.toNat ∧ c.toNat ≤ 57) ∨
      c.toNat = 45 := by
  unfold isSlugChar
  simp only [Bool.or_eq_true, Bool.and_eq_true, decide_eq_true_eq, charLe_iff,
    char_eq_iff_toNat]
  norm_num [show ('a').toNat = 97 from rfl, show ('z').toNat = 122 from rfl,
    show ('0').toNat = 48 from rfl, show ('9').toNat = 57 from rfl,
    show ('-').toNat = 45 from rfl]
  tauto

theorem slugChar_of_alnum_toLower (c : Char)
    (h : isAlnumA (Char.toLower c) = true) : isSlugChar (Char.toLower c) = true := by
  rw [isAlnumA_iff, char_toNat_toLower] at h
  rw [isSlugChar_iff, char_toNat_toLower]
  by_cases hc : c.toNat ≥ 65 ∧ c.toNat ≤ 90
  · rw [if_pos hc] at h ⊢
    omega
  · rw [if_neg hc] at h ⊢
    omega

/-! ## Normalisation of stored tag slugs (C3) -/

theorem mem_pyStrip (p : Char → Bool) (s : List Char) (x : Char)
    (hx : x ∈ pyStrip p s) : x ∈ s := by
  unfold pyStrip dropTrailing at hx
  rw [List.mem_reverse] at hx
  have h2 := List.IsSuffix.mem hx (List.dropWhile_suffix p)
  rw [List.mem_reverse] at h2
  exact List.IsSuffix.mem h2 (List.dropWhile_suffix p)

/-- Everything `models.slugify` produces is a normalised slug: lowercase
alphanumerics and hyphens only, at most 50 characters. -/
theorem models_slugify_norm (s : List Char) : isNormSlug (Models.slugify s) := by
  constructor
  · intro x hx
    unfold Models.slugify at hx
    by_cases he : s.isEmpty
    · rw [if_pos he] at hx; simp at hx
    · rw [if_neg he] at hx
      have h1 : x ∈ pyStrip (fun c => c = '-')
          (collapseRuns (fun c => !isAlnumA c) '-'
            (pyStrip isSpaceA (s.map Char.toLower))) :=
        List.mem_of_mem_take hx
      have h2 := mem_pyStrip _ _ _ h1
      rcases mem_collapseRuns _ _ _ _ h2 with rfl | ⟨hmem, hp⟩
      · decide
      · have hal : isAlnumA x = true := by simpa using hp
        have hx' := mem_pyStrip _ _ _ hmem
        obtain ⟨c, _, rfl⟩ := List.mem_map.mp hx'
        exact slugChar_of_alnum_toLower c hal
  · unfold Models.slugify
    by_cases he : s.isEmpty
    · rw [if_pos he]; simp
    · rw [if_neg he]
      exact List.length_take_le 50 _

/-- Structural description of `add_tag`: the base mapping `t₀` (freshly
initialised when `tags` was falsy) gets the slug appended to the selected
list unless already present. -/
theorem add_tag_spec (tags : Option Tags) (name ty : List Char) :
    ∃ t₀ : Tags,
      ((tagsFalsy tags = true ∧ t₀ = ⟨some [], some []⟩) ∨
        (tagsFalsy tags = false ∧ tags = some t₀)) ∧
      add_tag tags name ty =
        (if ty = categoryLit then
          (if Models.slugify name ∈ catList t₀ then some t₀
           else some ⟨some (catList t₀ ++ [Models.slugify name]), t₀.collections⟩)
         else
          (if Models.slugify name ∈ colList t₀ then some t₀
           else some ⟨t₀.categories, some (colList t₀ ++ [Models.slugify name])⟩)) := by
  unfold add_tag
  by_cases hf : tagsFalsy tags
  · exact ⟨⟨some [], some []⟩, Or.inl ⟨hf, rfl⟩, by rw [if_pos hf]⟩
  · rcases tags with _ | u
    · simp [tagsFalsy] at hf
    · refine ⟨u, Or.inr ⟨by simpa using hf, rfl⟩, ?_⟩
      rw [if_neg hf]
      rfl

theorem tagsNormalized_init : TagsNormalized ⟨some [], some []⟩ := by
  constructor <;> intro l hl <;> (injection hl with hl; rw [← hl]; intro s hs; simp at hs)

theorem tagsNodup_init : TagsNodup ⟨some [], some []⟩ := by
  constructor <;> intro l hl <;> (injection hl with hl; rw [← hl]; exact List.nodup_nil)

theorem add_tag_preserves_normalized (tags : Option Tags) (name ty : List Char)
    (h : OptTagsNormalized tags) : OptTagsNormalized (add_tag tags name ty) := by
  obtain ⟨t₀, hbase, heq⟩ := add_tag_spec tags name ty
  have hnorm : TagsNormalized t₀ := by
    rcases hbase with ⟨_, rfl⟩ | ⟨_, rfl⟩
    · exact tagsNormalized_init
    · exact h
  have hcat : ∀ s ∈ catList t₀ ++ [Models.slugify name], isNormSlug s := by
    intro s hs
    rcases List.mem_append.mp hs with hs | hs
    · rcases hc : t₀.categories with _ | l
      · rw [catList, hc] at hs; simp at hs
      · rw [catList, hc] at hs
        exact hnorm.1 l hc s (by simpa using hs)
    · rcases List.mem_singleton.mp hs with rfl
      exact models_slugify_norm name
  have hcol : ∀ s ∈ colList t₀ ++ [Models.slugify name], isNormSlug s := by
    intro s hs
    rcases List.mem_append.mp hs with hs | hs
    · rcases hc : t₀.collections with _ | l
      · rw [colList, hc] at hs; simp at hs
      · rw [colList, hc] at hs
        exact hnorm.2 l hc s (by simpa using hs)
    · rcases List.mem_singleton.mp hs with rfl
      exact models_slugify_norm name
  rw [heq]
  by_cases hty : ty = categoryLit
  · rw [if_pos hty]
    by_cases hmem : Models.slugify name ∈ catList t₀
    · rw [if_pos hmem]; exact hnorm
    · rw [if_neg hmem]
      exact ⟨fun l hl => by injection hl with hl; rw [← hl]; exact hcat,
        fun l hl => hnorm.2 l hl⟩
  · rw [if_neg hty]
    by_cases hmem : Models.slugify name ∈ colList t₀
    · rw [if_pos hmem]; exact hnorm
    · rw [if_neg hmem]
      exact ⟨fun l hl => hnorm.1 l hl,
        fun l hl => by injection hl with hl; rw [← hl]; exact hcol⟩

theorem add_tag_preserves_nodup (tags : Option Tags) (name ty : List Char)
    (h : OptTagsNodup tags) : OptTagsNodup (add_tag tags name ty) := by
  obtain ⟨t₀, hbase, heq⟩ := add_tag_spec tags name ty
  have hnd : TagsNodup t₀ := by
    rcases hbase with ⟨_, rfl⟩ | ⟨_, rfl⟩
    · exact tagsNodup_init
    · exact h
  rw [heq]
  by_cases hty : ty = categoryLit
  · rw [if_pos hty]
    by_cases hmem : Models.slugify name ∈ catList t₀
    · rw [if_pos hmem]; exact hnd
    · rw [if_neg hmem]
      refine ⟨fun l hl => ?_, fun l hl => hnd.2 l hl⟩
      injection hl with hl
      rw [← hl, List.nodup_append]
      refine ⟨?_, List.nodup_singleton _, ?_⟩
      · rcases hc : t₀.categories with _ | l'
        · simp [catList, hc]
        · simpa [catList, hc] using hnd.1 l' hc
      · intro x hx hx'
        rcases List.mem_singleton.mp hx' with rfl
        exact hmem hx
  · rw [if_neg hty]
    by_cases hmem : Models.slugify name ∈ colList t₀
    · rw [if_pos hmem]; exact hnd
    · rw [if_neg hmem]
      refine ⟨fun l hl => hnd.1 l hl, fun l hl => ?_⟩
      injection hl with hl
      rw [← hl, List.nodup_append]
      refine ⟨?_, List.nodup_singleton _, ?_⟩
      · rcases hc : t₀.collections with _ | l'
        · simp [colList, hc]
        · simpa [colList, hc] using hnd.2 l' hc
      · intro x hx hx'
        rcases List.mem_singleton.mp hx' with rfl
        exact hmem hx

theorem processTagField_norm (field : List Char) :
    ∀ s ∈ processTagField field, isNormSlug s := by
  intro s hs
  obtain ⟨orig, _, rfl⟩ := List.mem_map.mp hs
  exact models_slugify_norm orig

/-- C3 counterexample: the creation/edit form processing does not
deduplicate — submitting the collection-tags field `"Food, food"` stores the
slug `"food"` twice. -/
theorem C3_counterexample_form_not_deduplicated :
    form_recommendation_tags [] ['F', 'o', 'o', 'd', ',', ' ', 'f', 'o', 'o', 'd'] =
      some ⟨none, some [['f', 'o', 'o', 'd'], ['f', 'o', 'o', 'd']]⟩ ∧
    ¬ ([['f', 'o', 'o', 'd'], ['f', 'o', 'o', 'd']] : List (List Char)).Nodup :=
  ⟨by decide, by decide⟩

/-- C3 amended: every tag-writing operation stores a mapping with only the
two recognised keys (enforced structurally by the `Tags` record, matching
the write sites) whose lists hold only normalised slugs; `add_tag`
additionally never introduces a duplicate, but the form and PUT paths do not
deduplicate. -/
theorem C3_stored_tags_normalized :
    (∀ catF colF : List Char, OptTagsNormalized (form_recommendation_tags catF colF)) ∧
    (∀ cats cols : List (List Char),
      OptTagsNormalized (put_recommendation_tags cats cols)) ∧
    (∀ (tags : Option Tags) (name ty : List Char),
      OptTagsNormalized tags → OptTagsNormalized (add_tag tags name ty)) ∧
    (∀ (tags : Option Tags) (name ty : List Char),
      OptTagsNodup tags → OptTagsNodup (add_tag tags name ty)) := by
  refine ⟨?_, ?_, add_tag_preserves_normalized, add_tag_preserves_nodup⟩
  · intro catF colF
    show TagsNormalized _
    constructor
    · intro l hl
      simp only at hl
      split_ifs at hl with h1 h2
      injection hl with hl
      rw [← hl]
      exact processTagField_norm catF
    · intro l hl
      simp only at hl
      split_ifs at hl with h1 h2
      injection hl with hl
      rw [← hl]
      exact processTagField_norm colF
  · intro cats cols
    have hgen : ∀ (ll : List (List Char)) (l : List (List Char)),
        (ll.filter (fun c => !(pyStrip isSpaceA c).isEmpty)).map Models.slugify = l →
        ∀ s ∈ l, isNormSlug s := by
      intro ll l hl s hs
      rw [← hl] at hs
      obtain ⟨orig, _, rfl⟩ := List.mem_map.mp hs
      exact models_slugify_norm orig
    unfold put_recommendation_tags
    by_cases h1 : cats.isEmpty <;> by_cases h2 : cols.isEmpty <;>
      simp only [h1, h2, eq_self_iff_true, if_true, if_false, Bool.false_eq_true]
    · trivial
    · exact ⟨fun l hl => by simp at hl,
        fun l hl => hgen cols l (by injection hl)⟩
    · exact ⟨fun l hl => hgen cats l (by injection hl),
        fun l hl => by simp at hl⟩
    · exact ⟨fun l hl => hgen cats l (by injection hl),
        fun l hl => hgen cols l (by injection hl)⟩

/-- Concrete instance of `C3_stored_tags_normalized` for the `add_tag`
conjuncts. -/
theorem C3_stored_tags_normalized_witness :
    (OptTagsNormalized (some ⟨some [], none⟩) ∧ OptTagsNodup (some ⟨some [], none⟩)) ∧
    OptTagsNormalized (add_tag (some ⟨some [], none⟩) ['F', 'o', 'o'] []) ∧
    OptTagsNodup (add_tag (some ⟨some [], none⟩) ['F', 'o', 'o'] []) :=
  ⟨⟨⟨fun l hl => by injection hl with hl; rw [← hl]; intro s hs; simp at hs,
      fun l hl => by simp at hl⟩,
    ⟨fun l hl => by injection hl with hl; rw [← hl]; exact List.nodup_nil,
      fun l hl => by simp at hl⟩⟩,
    C3_stored_tags_normalized.2.2.1 (some ⟨some [], none⟩) ['F', 'o', 'o'] []
      ⟨fun l hl => by injection hl with hl; rw [← hl]; intro s hs; simp at hs,
        fun l hl => by simp at hl⟩,
    C3_stored_tags_normalized.2.2.2 (some ⟨some [], none⟩) ['F', 'o', 'o'] []
      ⟨fun l hl => by injection hl with hl; rw [← hl]; exact List.nodup_nil,
        fun l hl => by simp at hl⟩⟩

/-! ## Comparing the two slugify implementations (C10) -/

theorem isSpaceA_iff (c : Char) : isSpaceA c = true ↔
    c.toNat = 32 ∨ c.toNat = 9 ∨ c.toNat = 10 ∨ c.toNat = 13 ∨
      c.toNat = 11 ∨ c.toNat = 12 := by
  unfold isSpaceA
  simp only [Bool.or_eq_true, decide_eq_true_eq, char_eq_iff_toNat,
    show (' ').toNat = 32 from rfl, show ('\t').toNat = 9 from rfl,
    show ('\n').toNat = 10 from rfl, show ('\r').toNat = 13 from rfl,
    show ('\x0b').toNat = 11 from rfl, show ('\x0c').toNat = 12 from rfl]
  tauto

theorem isSpaceA_toLower (c : Char) : isSpaceA (Char.toLower c) = isSpaceA c := by
  rcases h1 : isSpaceA c with _ | _ <;> rcases h2 : isSpaceA (Char.toLower c) with _ | _
  · rfl
  · exfalso
    rw [isSpaceA_iff, char_toNat_toLower] at h2
    rw [show (isSpaceA c = false) ↔ ¬(isSpaceA c = true) by simp, isSpaceA_iff] at h1
    by_cases hc : c.toNat ≥ 65 ∧ c.toNat ≤ 90
    · rw [if_pos hc] at h2; omega
    · rw [if_neg hc] at h2; omega
  · exfalso
    rw [isSpaceA_iff] at h1
    rw [show (isSpaceA (Char.toLower c) = false) ↔ ¬(isSpaceA (Char.toLower c) = true)
      by simp, isSpaceA_iff, char_toNat_toLower] at h2
    have hc : ¬ (c.toNat ≥ 65 ∧ c.toNat ≤ 90) := by omega
    rw [if_neg hc] at h2
    omega
  · rfl

theorem isAlnumA_toLower (c : Char) (h : isAlnumA c = true) :
    isAlnumA (Char.toLower c) = true := by
  rw [isAlnumA_iff] at h ⊢
  rw [char_toNat_toLower]
  by_cases hc : c.toNat ≥ 65 ∧ c.toNat ≤ 90
  · rw [if_pos hc]; omega
  · rw [if_neg hc]; omega

theorem pyStrip_map_toLower (s : List Char) :
    pyStrip isSpaceA (s.map Char.toLower) = (pyStrip isSpaceA s).map Char.toLower := by
  have hfun : (isSpaceA ∘ Char.toLower) = isSpaceA := funext fun c => isSpaceA_toLower c
  unfold pyStrip dropTrailing
  rw [List.dropWhile_map, hfun, ← List.map_reverse, List.dropWhile_map, hfun,
    ← List.map_reverse]

theorem collapseRuns_congr (p q : Char → Bool) (h : Char) (s : List Char)
    (hpq : ∀ c ∈ s, p c = q c) : collapseRuns p h s = collapseRuns q h s := by
  induction s with
  | nil => rfl
  | cons c s ih =>
    have hc := hpq c (List.mem_cons_self _ _)
    have hrest : ∀ x ∈ s, p x = q x := fun x hx => hpq x (List.mem_cons_of_mem _ hx)
    have hh : headP p s = headP q s := by
      cases s with
      | nil => rfl
      | cons d rest => simp [headP, hrest d (List.mem_cons_self _ _)]
    rw [collapseRuns_cons, collapseRuns_cons, hc, hh, ih hrest]

theorem dropWhile_head_not (p : Char → Bool) (y : List Char) (c : Char) (x : List Char)
    (h : List.dropWhile p y = c :: x) : p c = false := by
  induction y with
  | nil => simp at h
  | cons d y ih =>
    by_cases hd : p d
    · rw [List.dropWhile_cons_of_pos hd] at h
      exact ih h
    · rw [List.dropWhile_cons_of_neg hd] at h
      injection h with h1 _
      rw [← h1]
      exact Bool.not_eq_true _ ▸ (by simpa using hd)

theorem length_pyStrip_le (p : Char → Bool) (s : List Char) :
    (pyStrip p s).length ≤ s.length := by
  unfold pyStrip dropTrailing
  have h1 : (List.dropWhile p s).length ≤ s.length :=
    List.IsSuffix.length_le (List.dropWhile_suffix p)
  have h2 : (List.dropWhile p (List.dropWhile p s).reverse).length ≤
      (List.dropWhile p s).reverse.length :=
    List.IsSuffix.length_le (List.dropWhile_suffix p)
  rw [List.length_reverse] at h2
  calc ((List.dropWhile p (List.dropWhile p s).reverse).reverse).length
      = (List.dropWhile p (List.dropWhile p s).reverse).length :=
        List.length_reverse _
    _ ≤ (List.dropWhile p s).length := h2
    _ ≤ s.length := h1

/-- C10 counterexample: the two slugify implementations disagree at `"a_b"` —
`utils.slugify` keeps the underscore (it is a `\w` character), while
`models.slugify` collapses it to a hyphen. -/
theorem C10_counterexample_underscore :
    Utils.slugify ['a', '_', 'b'] = ['a', '_', 'b'] ∧
    Models.slugify ['a', '_', 'b'] = ['a', '-', 'b'] ∧
    Utils.slugify ['a', '_', 'b'] ≠ Models.slugify ['a', '_', 'b'] :=
  ⟨by decide, by decide, by decide⟩

/-- C10 amended: the two slugify functions are not extensionally equal (they
differ on underscores, punctuation, long inputs and surrounding hyphens),
but they agree on every string made of ASCII letters, digits and whitespace
of length at most 50. -/
theorem C10_slugify_agree_on_alnum_space (s : List Char)
    (hD : ∀ c ∈ s, (isAlnumA c || isSpaceA c) = true)
    (hlen : s.length ≤ 50) :
    Utils.slugify s = Models.slugify s := by
  classical
  by_cases hse : s.isEmpty
  · rw [List.isEmpty_iff.mp hse]
    rfl
  -- the lowered, stripped string both functions collapse
  set t := s.map Char.toLower with ht
  set u := pyStrip isSpaceA t with hu
  have hD' : ∀ c ∈ t, (isAlnumA c || isSpaceA c) = true ∧ c ≠ '-' := by
    intro c hc
    obtain ⟨c₀, hc₀, rfl⟩ := List.mem_map.mp hc
    have hd := hD c₀ hc₀
    rw [Bool.or_eq_true] at hd
    constructor
    · rw [Bool.or_eq_true]
      rcases hd with hd | hd
      · exact Or.inl (isAlnumA_toLower c₀ hd)
      · exact Or.inr (by rw [isSpaceA_toLower]; exact hd)
    · intro heq
      have h45 : (Char.toLower c₀).toNat = 45 := by rw [heq]; rfl
      rw [char_toNat_toLower] at h45
      rcases hd with hd | hd
      · rw [isAlnumA_iff] at hd
        by_cases hc' : c₀.toNat ≥ 65 ∧ c₀.toNat ≤ 90
        · rw [if_pos hc'] at h45; omega
        · rw [if_neg hc'] at h45; omega
      · rw [isSpaceA_iff] at hd
        by_cases hc' : c₀.toNat ≥ 65 ∧ c₀.toNat ≤ 90
        · rw [if_pos hc'] at h45; omega
        · rw [if_neg hc'] at h45; omega
  have hDu : ∀ c ∈ u, (isAlnumA c || isSpaceA c) = true ∧ c ≠ '-' :=
    fun c hc => hD' c (mem_pyStrip _ _ _ hc)
  -- utils.slugify s reduces to collapsing u
  have hkept : s.filter (fun c => isWordA c || isSpaceA c || c = '-') = s := by
    rw [List.filter_eq_self]
    intro c hc
    have := hD c hc
    rw [Bool.or_eq_true] at this
    rcases this with h | h
    · simp [isWordA, h]
    · simp [h]
  have hutils : Utils.slugify s =
      collapseRuns (fun c => isSpaceA c || c = '-') '-' u := by
    unfold Utils.slugify
    rw [hkept]
    show collapseRuns (fun c => isSpaceA c || c = '-') '-'
      ((pyStrip isSpaceA s).map Char.toLower) = _
    rw [← pyStrip_map_toLower]
  -- the two collapsing predicates agree on u
  have hcong : collapseRuns (fun c => isSpaceA c || c = '-') '-' u =
      collapseRuns (fun c => !isAlnumA c) '-' u := by
    apply collapseRuns_congr
    intro c hc
    obtain ⟨hc1, hc2⟩ := hDu c hc
    rw [Bool.or_eq_true] at hc1
    rcases hc1 with h | h
    · have hns : isSpaceA c = false := by
        rcases hs : isSpaceA c with _ | _
        · rfl
        · exfalso
          rw [isAlnumA_iff] at h
          rw [isSpaceA_iff] at hs
          omega
      simp [h, hns, hc2]
    · have hna : isAlnumA c = false := by
        rcases ha : isAlnumA c with _ | _
        · rfl
        · exfalso
          rw [isAlnumA_iff] at ha
          rw [isSpaceA_iff] at h
          omega
      simp [h, hna]
  set v := collapseRuns (fun c => !isAlnumA c) '-' u with hv
  -- v has no leading or trailing hyphen and is short, so models.slugify s = v
  have hwsu : List.dropWhile isSpaceA u = u := by
    rw [hu]
    unfold pyStrip
    rw [dropWhile_dropTrailing_comm, List.dropWhile_idempotent]
  have hhead : ∀ (c : Char) (x : List Char), v = c :: x → c ≠ '-' := by
    intro c x hcx
    rcases hu' : u with _ | ⟨c₀, x₀⟩
    · rw [hv, hu'] at hcx
      simp [collapseRuns] at hcx
    · have hc₀ : isSpaceA c₀ = false := by
        apply dropWhile_head_not isSpaceA u c₀ x₀
        rw [hwsu, hu']
      have hal : isAlnumA c₀ = true := by
        have := (hDu c₀ (by rw [hu']; exact List.mem_cons_self _ _)).1
        rw [Bool.or_eq_true] at this
        rcases this with h | h
        · exact h
        · rw [h] at hc₀; exact absurd hc₀ (by simp)
      rw [hv, hu', collapseRuns_cons] at hcx
      rw [show ((!isAlnumA c₀) = false) from by simp [hal]] at hcx
      simp only [Bool.false_eq_true, if_false] at hcx
      injection hcx with h1 _
      rw [← h1]
      have := (hDu c₀ (by rw [hu']; exact List.mem_cons_self _ _)).2
      exact this
  have hlast : ∀ (c : Char) (x : List Char), v.reverse = c :: x → c ≠ '-' := by
    intro c x hcx
    have hvrev : v.reverse = collapseRuns (fun c => !isAlnumA c) '-' u.reverse := by
      rw [hv, collapseRuns_reverse]
    have hurev : u.reverse = List.dropWhile isSpaceA (List.dropWhile isSpaceA t).reverse := by
      rw [hu]
      unfold pyStrip dropTrailing
      rw [List.reverse_reverse]
    rcases hur : u.reverse with _ | ⟨c₀, x₀⟩
    · rw [hvrev, hur] at hcx
      simp [collapseRuns] at hcx
    · have hc₀ : isSpaceA c₀ = false := by
        apply dropWhile_head_not isSpaceA (List.dropWhile isSpaceA t).reverse c₀ x₀
        rw [← hurev, hur]
      have hc₀u : c₀ ∈ u := by
        rw [← List.mem_reverse, hur]
        exact List.mem_cons_self _ _
      have hal : isAlnumA c₀ = true := by
        have := (hDu c₀ hc₀u).1
        rw [Bool.or_eq_true] at this
        rcases this with h | h
        · exact h
        · rw [h] at hc₀; exact absurd hc₀ (by simp)
      rw [hvrev, hur, collapseRuns_cons] at hcx
      rw [show ((!isAlnumA c₀) = false) from by simp [hal]] at hcx
      simp only [Bool.false_eq_true, if_false] at hcx
      injection hcx with h1 _
      rw [← h1]
      exact (hDu c₀ hc₀u).2
  have hstrip : pyStrip (fun c => c = '-') v = v := by
    unfold pyStrip dropTrailing
    have h1 : List.dropWhile (fun c => c = '-') v = v := by
      rcases hv' : v with _ | ⟨c, x⟩
      · rfl
      · rw [List.dropWhile_cons_of_neg]
        simp only [decide_eq_true_eq]
        exact hhead c x hv'
    rw [h1]
    have h2 : List.dropWhile (fun c => c = '-') v.reverse = v.reverse := by
      rcases hv' : v.reverse with _ | ⟨c, x⟩
      · rfl
      · rw [List.dropWhile_cons_of_neg]
        simp only [decide_eq_true_eq]
        exact hlast c x hv'
    rw [h2, List.reverse_reverse]
  have hvlen : v.length ≤ 50 := by
    calc v.length ≤ u.length := length_collapseRuns_le _ _ _
      _ ≤ t.length := length_pyStrip_le _ _
      _ = s.length := by rw [ht, List.length_map]
      _ ≤ 50 := hlen
  have hmodels : Models.slugify s = v := by
    unfold Models.slugify
    rw [if_neg hse]
    show (pyStrip (fun c => c = '-')
      (collapseRuns (fun c => !isAlnumA c) '-' (pyStrip isSpaceA (s.map Char.toLower)))).take 50 = v
    rw [← ht, ← hu, ← hv, hstrip]
    exact List.take_of_length_le hvlen
  rw [hutils, hcong, hmodels]

/-- Concrete instance of `C10_slugify_agree_on_alnum_space`. -/
theorem C10_slugify_agree_on_alnum_space_witness :
    (∀ c ∈ ['S', 'u', 'm', 'm', 'e', 'r', ' ', '2', '0', '2', '5'],
      (isAlnumA c || isSpaceA c) = true) ∧
    (['S', 'u', 'm', 'm', 'e', 'r', ' ', '2', '0', '2', '5'] : List Char).length ≤ 50 ∧
    Utils.slugify ['S', 'u', 'm', 'm', 'e', 'r', ' ', '2', '0', '2', '5'] =
      Models.slugify ['S', 'u', 'm', 'm', 'e', 'r', ' ', '2', '0', '2', '5'] :=
  ⟨by decide, by decide,
    C10_slugify_agree_on_alnum_space ['S', 'u', 'm', 'm', 'e', 'r', ' ', '2', '0', '2', '5']
      (by decide) (by decide)⟩

/-! ## Tag filtering semantics (C1)

The endpoint's LIKE pattern wraps the slug in double quotes, so for
normalised slugs (which contain no quotes, commas or brackets) the pattern
matches the serialised JSON list exactly when the slug is an element of the
list. -/

theorem isSubList_iff (p s : List Char) : isSubList p s = true ↔ p <:+: s := by
  unfold isSubList
  rw [List.any_eq_true]
  constructor
  · rintro ⟨t, ht, hp⟩
    rw [List.mem_tails] at ht
    rw [List.isPrefixOf_iff_prefix] at hp
    exact List.infix_iff_prefix_suffix.mpr ⟨t, hp, ht⟩
  · intro h
    obtain ⟨t, hp, ht⟩ := List.infix_iff_prefix_suffix.mp h
    exact ⟨t, (List.mem_tails _ _).mpr ht, List.isPrefixOf_iff_prefix.mpr hp⟩

theorem slugChar_ne_delims (c : Char) (h : isSlugChar c = true) :
    c ≠ '"' ∧ c ≠ ',' ∧ c ≠ '[' ∧ c ≠ ']' := by
  rw [isSlugChar_iff] at h
  refine ⟨fun hc => ?_, fun hc => ?_, fun hc => ?_, fun hc => ?_⟩ <;>
    (rw [hc] at h; revert h; decide)

/-- If `s ++ ['"']` is a prefix of `x ++ '"' :: rest` and neither `s` nor `x`
contains a quote, then `s = x`. -/
theorem quoted_prefix_eq (s : List Char) : ∀ (x rest : List Char),
    '"' ∉ s → '"' ∉ x → (s ++ ['"'] <+: x ++ '"' :: rest) → s = x := by
  induction s with
  | nil =>
    intro x rest _ hx h
    cases x with
    | nil => rfl
    | cons a x' =>
      rw [List.nil_append, List.cons_append] at h
      have := (List.cons_prefix_cons.mp h).1
      exact absurd (by rw [this]; exact List.mem_cons_self a x') hx
  | cons c s' ih =>
    intro x rest hs hx h
    cases x with
    | nil =>
      rw [List.cons_append, List.nil_append] at h
      have := (List.cons_prefix_cons.mp h).1
      exact absurd (by rw [← this]; exact List.mem_cons_self c s') hs
    | cons a x' =>
      rw [List.cons_append, List.cons_append] at h
      obtain ⟨hca, h'⟩ := List.cons_prefix_cons.mp h
      have hs' : '"' ∉ s' := fun hm => hs (List.mem_cons_of_mem _ hm)
      have hx' : '"' ∉ x' := fun hm => hx (List.mem_cons_of_mem _ hm)
      rw [hca, ih x' rest hs' hx' h']

/-- A pattern starting with a quote that occurs inside `x ++ '"' :: T` with
quote-free `x` must occur inside `'"' :: T`. -/
theorem infix_skip_unquoted (s : List Char) : ∀ (x T : List Char), '"' ∉ x →
    ('"' :: s) <:+: (x ++ '"' :: T) → ('"' :: s) <:+: ('"' :: T) := by
  intro x
  induction x with
  | nil => intro T _ h; simpa using h
  | cons a x' ih =>
    intro T hx h
    rw [List.cons_append] at h
    rcases List.infix_cons_iff.mp h with hpre | htail
    · have := (List.cons_prefix_cons.mp hpre).1
      exact absurd (by rw [this]; exact List.mem_cons_self a x') hx
    · exact ih T (fun hm => hx (List.mem_cons_of_mem _ hm)) htail

/-- An occurrence inside `core ++ [']']` of a pattern ending in `'"'` is an
occurrence inside `core`. -/
theorem infix_drop_last_bracket (s core : List Char)
    (h : ('"' :: s ++ ['"']) <:+: core ++ [']']) :
    ('"' :: s ++ ['"']) <:+: core := by
  obtain ⟨u, v, huv⟩ := h
  rcases List.eq_nil_or_concat v with rfl | ⟨v', g, rfl⟩
  · exfalso
    rw [List.append_nil] at huv
    have h2 : (u ++ ('"' :: s)) ++ ['"'] = core ++ [']'] := by
      rw [← huv]
      simp
    have := (List.append_inj h2 (by
      have hlen := congrArg List.length h2
      simp at hlen
      simp
      omega)).2
    simp at this
  · refine ⟨u, v', ?_⟩
    have h2 : (u ++ ('"' :: s ++ ['"']) ++ v') ++ [g] = core ++ [']'] := by
      rw [← huv, List.concat_eq_append]
      simp
    exact (List.append_inj h2 (by
      have hlen := congrArg List.length h2
      simp at hlen
      simp
      omega)).1

/-- Core soundness: an occurrence of the quoted pattern inside the
serialised list body forces exact element membership, provided the slug and
all stored elements use only slug characters. -/
theorem mem_of_pat_infix_core (s : List Char) (hs : ∀ c ∈ s, isSlugChar c = true) :
    ∀ (l : List (List Char)), (∀ x ∈ l, ∀ c ∈ x, isSlugChar c = true) →
    ('"' :: s ++ ['"']) <:+: tagListCore l → s ∈ l := by
  have hsq : '"' ∉ s := fun hm => (slugChar_ne_delims '"' (hs '"' hm)).1 rfl
  have hsc : ',' ∉ s := fun hm => (slugChar_ne_delims ',' (hs ',' hm)).2.1 rfl
  intro l
  induction l with
  | nil =>
    intro _ h
    rw [show tagListCore [] = [] from rfl, List.infix_nil] at h
    simp at h
  | cons x xs ih =>
    intro hl h
    have hxq : '"' ∉ x := fun hm =>
      (slugChar_ne_delims '"' (hl x (List.mem_cons_self _ _) '"' hm)).1 rfl
    cases xs with
    | nil =>
      rw [show tagListCore [x] = '"' :: x ++ ['"'] from rfl] at h
      rcases List.infix_cons_iff.mp h with hpre | htail
      · obtain ⟨_, hpre'⟩ := List.cons_prefix_cons.mp hpre
        have : s = x := quoted_prefix_eq s x [] hsq hxq (by
          simpa using hpre')
        rw [this]
        exact List.mem_cons_self _ _
      · exfalso
        have hlen := List.IsInfix.length_le (by
          have : ('"' :: s ++ ['"']) <:+: ('"' :: ([] : List Char)) := by
            have hskip := infix_skip_unquoted (s ++ ['"']) x [] hxq (by
              simpa using htail)
            simpa using hskip
          exact this)
        simp at hlen
    | cons y ys =>
      rw [show tagListCore (x :: y :: ys) =
        '"' :: (x ++ '"' :: ',' :: tagListCore (y :: ys)) from rfl] at h
      rcases List.infix_cons_iff.mp h with hpre | htail
      · obtain ⟨_, hpre'⟩ := List.cons_prefix_cons.mp hpre
        have : s = x := quoted_prefix_eq s x (',' :: tagListCore (y :: ys)) hsq hxq (by
          simpa using hpre')
        rw [this]
        exact List.mem_cons_self _ _
      · have hskip := infix_skip_unquoted (s ++ ['"']) x
          (',' :: tagListCore (y :: ys)) hxq (by simpa using htail)
        rcases List.infix_cons_iff.mp hskip with hpre2 | htail2
        · exfalso
          obtain ⟨_, hpre2'⟩ := List.cons_prefix_cons.mp hpre2
          cases hsv : s with
          | nil =>
            rw [hsv] at hpre2'
            rw [List.nil_append] at hpre2'
            have := (List.cons_prefix_cons.mp hpre2').1
            simp at this
          | cons c s' =>
            rw [hsv, List.cons_append] at hpre2'
            have hc := (List.cons_prefix_cons.mp hpre2').1
            apply hsc
            rw [hsv, ← hc]
            exact List.mem_cons_self _ _
        · rcases List.infix_cons_iff.mp htail2 with hpre3 | htail3
          · exfalso
            have := (List.cons_prefix_cons.mp hpre3).1
            simp at this
          · exact List.mem_cons_of_mem _
              (ih (fun z hz => hl z (List.mem_cons_of_mem _ hz)) htail3)

/-- Core completeness: membership yields an occurrence of the quoted
pattern. -/
theorem pat_infix_core_of_mem (s : List Char) :
    ∀ (l : List (List Char)), s ∈ l →
    ('"' :: s ++ ['"']) <:+: tagListCore l := by
  intro l
  induction l with
  | nil => intro h; simp at h
  | cons x xs ih =>
    intro h
    rcases List.mem_cons.mp h with rfl | hmem
    · cases xs with
      | nil => exact List.infix_refl _
      | cons y ys =>
        have hcore : tagListCore (s :: y :: ys) =
            '"' :: s ++ '"' :: ',' :: tagListCore (y :: ys) := rfl
        rw [hcore]
        refine List.IsPrefix.isInfix ⟨',' :: tagListCore (y :: ys), ?_⟩
        simp
    · cases xs with
      | nil => simp at hmem
      | cons y ys =>
        have hsub := ih hmem
        have hcore : tagListCore (x :: y :: ys) =
            '"' :: x ++ '"' :: ',' :: tagListCore (y :: ys) := rfl
        rw [hcore]
        obtain ⟨u, v, huv⟩ := hsub
        exact ⟨'"' :: x ++ ['"', ','] ++ u, v, by rw [← huv]; simp⟩

/-- The LIKE pattern `%"slug"%` over the serialised list is exact element
membership, for slug-charactered slugs and stored lists. -/
theorem likePattern_infix_iff (s : List Char) (l : List (List Char))
    (hs : ∀ c ∈ s, isSlugChar c = true)
    (hl : ∀ x ∈ l, ∀ c ∈ x, isSlugChar c = true) :
    isSubList (likePattern s) (serializeTagList l) = true ↔ s ∈ l := by
  rw [isSubList_iff]
  unfold likePattern serializeTagList
  constructor
  · intro h
    rcases List.infix_cons_iff.mp h with hpre | htail
    · exfalso
      have := (List.cons_prefix_cons.mp hpre).1
      simp at this
    · exact mem_of_pat_infix_core s hs l hl (infix_drop_last_bracket s _ htail)
  · intro h
    have hcore := pat_infix_core_of_mem s l h
    obtain ⟨u, v, huv⟩ := hcore
    exact ⟨'[' :: u, v ++ [']'], by rw [← huv]; simp⟩

theorem list_all_congr {α : Type} (f g : α → Bool) (l : List α)
    (h : ∀ x ∈ l, f x = g x) : l.all f = l.all g := by
  induction l with
  | nil => rfl
  | cons x xs ih =>
    rw [List.all_cons, List.all_cons, h x (List.mem_cons_self _ _),
      ih (fun y hy => h y (List.mem_cons_of_mem _ hy))]

/-- C1 counterexample: the query tag "art" does NOT match a recommendation
carrying only the collection slug "smart-art" — the handler's LIKE pattern
wraps the slug in quotes, so the claimed bare-substring semantics (under
which "art" would match) is wrong. -/
theorem C1_counterexample_art_smart_art :
    sqlLikeTagCond (some ⟨none, some [['s', 'm', 'a', 'r', 't', '-', 'a', 'r', 't']]⟩)
      ['a', 'r', 't'] = false ∧
    claimedTagMatch (some ⟨none, some [['s', 'm', 'a', 'r', 't', '-', 'a', 'r', 't']]⟩)
      ['a', 'r', 't'] = true ∧
    Models.slugify ['a', 'r', 't'] = ['a', 'r', 't'] :=
  ⟨by decide, by decide, by decide⟩

/-- C1 amended: a visible recommendation matches a requested tag exactly when
the slug wrapped in double quotes is a substring of a serialised tag list,
which — for normalised stored slugs — is exact element membership, not bare
substring containment; multiple requested tags are still combined with
logical AND over this exact-membership condition. -/
theorem C1_tag_filter_is_exact_membership :
    (∀ (tags : Option Tags) (slug : List Char),
      (∀ c ∈ slug, isSlugChar c = true) →
      OptTagsNormalized tags →
      sqlLikeTagCond tags slug = exactTagMatch tags slug) ∧
    (∀ (tags : Option Tags) (qs : List (List Char)),
      OptTagsNormalized tags →
      matchesTagQuery tags qs =
        qs.all (fun q => exactTagMatch tags (Models.slugify q))) := by
  have hmain : ∀ (tags : Option Tags) (slug : List Char),
      (∀ c ∈ slug, isSlugChar c = true) →
      OptTagsNormalized tags →
      sqlLikeTagCond tags slug = exactTagMatch tags slug := by
    intro tags slug hs hnorm
    rcases tags with _ | t
    · rfl
    · have hcat : ∀ l, t.categories = some l → ∀ x ∈ l, ∀ c ∈ x, isSlugChar c = true :=
        fun l hl x hx c hc => (hnorm.1 l hl x hx).1 c hc
      have hcol : ∀ l, t.collections = some l → ∀ x ∈ l, ∀ c ∈ x, isSlugChar c = true :=
        fun l hl x hx c hc => (hnorm.2 l hl x hx).1 c hc
      rcases hc1 : t.categories with _ | lc <;> rcases hc2 : t.collections with _ | ll <;>
        rw [Bool.eq_iff_iff] <;>
        simp only [sqlLikeTagCond, exactTagMatch, hc1, hc2, Bool.or_eq_true,
          decide_eq_true_eq]
      · exact or_congr (Iff.rfl.trans (iff_of_false (by simp) (by simp)))
          (likePattern_infix_iff slug ll hs (hcol ll hc2))
      · exact or_congr (likePattern_infix_iff slug lc hs (hcat lc hc1))
          (Iff.rfl.trans (iff_of_false (by simp) (by simp)))
      · exact or_congr (likePattern_infix_iff slug lc hs (hcat lc hc1))
          (likePattern_infix_iff slug ll hs (hcol ll hc2))
  refine ⟨hmain, ?_⟩
  intro tags qs hnorm
  unfold matchesTagQuery
  apply list_all_congr
  intro q _
  exact hmain tags (Models.slugify q) (fun c hc => (models_slugify_norm q).1 c hc) hnorm

/-- Concrete instance of `C1_tag_filter_is_exact_membership`: with the single
stored collection slug "art", the query slug "art" matches and the quoted
LIKE condition agrees with exact membership. -/
theorem C1_tag_filter_is_exact_membership_witness :
    ((∀ c ∈ ['a', 'r', 't'], isSlugChar c = true) ∧
      OptTagsNormalized (some ⟨none, some [['a', 'r', 't']]⟩)) ∧
    sqlLikeTagCond (some ⟨none, some [['a', 'r', 't']]⟩) ['a', 'r', 't'] =
      exactTagMatch (some ⟨none, some [['a', 'r', 't']]⟩) ['a', 'r', 't'] :=
  ⟨⟨by decide,
    ⟨fun l hl => by simp at hl,
      fun l hl => by injection hl with h; rw [← h]; decide⟩⟩,
    C1_tag_filter_is_exact_membership.1 (some ⟨none, some [['a', 'r', 't']]⟩)
      ['a', 'r', 't'] (by decide)
      ⟨fun l hl => by simp at hl,
        fun l hl => by injection hl with h; rw [← h]; decide⟩⟩

end Cur8tr
